import Mathlib

/-!
Verification of the intel-extension-for-tensorflow XLA pass-framework region:
a shallow embedding of the device-assignment component, the stream-executor
platform-kind helpers, and the five graph-rewriting passes described in the
design document, together with theorems settling the claims about them.
-/


namespace ITexXla

/-! ## Device assignment (`computation_placer.h`)

`DeviceAssignment` derives from `Array2D<int>`; the two-argument constructor
first builds the underlying array filled with `-1` and then runs
`ITEX_CHECK_GT(replica_count, 0)` and `ITEX_CHECK_GT(computation_count, 0)`.
An `ITEX_CHECK` failure aborts the process; it is not an error return. -/

/-- Shallow embedding of `Array2D<int>`: a list of rows of `Int` cells. -/
structure Array2D where
  data : List (List Int)
deriving DecidableEq

/-- Source `Array2D::height()`: number of rows. -/
def Array2D.height (a : Array2D) : Nat := a.data.length

/-- Source `Array2D::width()`: number of columns. -/
def Array2D.width (a : Array2D) : Nat :=
  match a.data with
  | [] => 0
  | r :: _ => r.length

/-- Source `Array2D(height, width, value)`: an `h × w` array filled with `value`. -/
def mkFilledArray2D (h w : Nat) (v : Int) : Array2D :=
  ⟨List.replicate h (List.replicate w v)⟩

/-- Outcome of running a fallible C++ constructor or a `StatusOr` function:
it can produce a value, return an error `Status` to the caller, or abort the
whole process (which is what a failing `ITEX_CHECK` does). -/
inductive Outcome (α : Type) where
  | ok (value : α)
  | errorStatus (msg : String)
  | checkFail
deriving DecidableEq

/-- True exactly when the outcome is an error status returned to the caller. -/
def Outcome.isErrorStatus {α : Type} : Outcome α → Bool
  | .errorStatus _ => true
  | _ => false

/-- Source `DeviceAssignment::DeviceAssignment(int replica_count, int
computation_count)`: builds the base `Array2D<int>(replica_count,
computation_count, -1)` and then `ITEX_CHECK_GT`s both counts against `0`;
a non-positive count makes the `ITEX_CHECK_GT` fail, aborting the process. -/
def deviceAssignmentConstruct (replica_count computation_count : Int) : Outcome Array2D :=
  if replica_count ≤ 0 ∨ computation_count ≤ 0 then
    .checkFail
  else
    .ok (mkFilledArray2D replica_count.toNat computation_count.toNat (-1))

/-! ## Platform kinds (`stream_executor/platform.cc`)

The `PlatformKind` enumeration itself is declared in
`stream_executor/platform.h`, which is not part of the sources here.
Modelled from the spec: its constructor list and order are taken from the
switch statements of `platform.cc` (kSycl, kCuda, kROCm, kOpenCL, kHost,
kMock are the named kinds, with kInvalid first and kSize last). -/

inductive PlatformKind where
  | kInvalid
  | kSycl
  | kCuda
  | kROCm
  | kOpenCL
  | kHost
  | kMock
  | kSize
deriving DecidableEq, Fintype

/-- The C++ `static_cast<int>` of a `PlatformKind` enumerator. -/
def PlatformKind.toNat : PlatformKind → Nat
  | .kInvalid => 0
  | .kSycl => 1
  | .kCuda => 2
  | .kROCm => 3
  | .kOpenCL => 4
  | .kHost => 5
  | .kMock => 6
  | .kSize => 7

/-- The C++ `static_cast<PlatformKind>` of an integer in the enum's range. -/
def platformKindOfNat (n : Nat) : PlatformKind :=
  match n with
  | 0 => .kInvalid
  | 1 => .kSycl
  | 2 => .kCuda
  | 3 => .kROCm
  | 4 => .kOpenCL
  | 5 => .kHost
  | 6 => .kMock
  | _ => .kSize

/-- Source `PlatformKindString` (`platform.cc`): renders the six named kinds;
every other kind falls into the `default` branch producing
`InvalidPlatformKind(<int value>)`. -/
def PlatformKindString (kind : PlatformKind) : String :=
  match kind with
  | .kSycl => "SYCL"
  | .kCuda => "CUDA"
  | .kROCm => "ROCm"
  | .kOpenCL => "OpenCL"
  | .kHost => "Host"
  | .kMock => "Mock"
  | k => "InvalidPlatformKind(" ++ toString k.toNat ++ ")"

/-- Source `PlatformKindFromString` (`platform.cc`): scans kinds `0 ≤ i <
kSize` in order and returns the first whose rendering equals the input,
falling back to `kInvalid`. -/
def PlatformKindFromString (kind : String) : PlatformKind :=
  match (List.range PlatformKind.kSize.toNat).find?
      (fun i => PlatformKindString (platformKindOfNat i) == kind) with
  | some i => platformKindOfNat i
  | none => .kInvalid

/-- Source `PlatformIsRunnable` (`platform.cc`). -/
def PlatformIsRunnable (kind : PlatformKind) : Bool :=
  match kind with
  | .kSycl | .kCuda | .kROCm | .kOpenCL | .kHost => true
  | _ => false

/-- Source `PlatformIsRunnableOnDevice` (`platform.cc`). -/
def PlatformIsRunnableOnDevice (kind : PlatformKind) : Bool :=
  match kind with
  | .kSycl | .kCuda | .kROCm | .kOpenCL => true
  | _ => false

/-! ## Device-id lookup (`DeviceAssignment::LogicalIdForDevice`)

Only the declaration of `LogicalIdForDevice` is among the sources; its body
lives in `computation_placer.cc`, which is not part of them. -/

/-- The logical ID of a device: its `(replica ID, computation ID)` pair
(source `DeviceAssignment::LogicalID`). -/
structure LogicalID where
  replica_id : Nat
  computation_id : Nat
deriving DecidableEq

/-- Error codes of the NotFound-style failures the spec describes. -/
inductive ErrorCode where
  | notFound
  | internalError
deriving DecidableEq

/-- The cell of the assignment table at `(replica r, computation c)`, when
both indices are in range. -/
def cellAt (t : Array2D) (r c : Nat) : Option Int :=
  (t.data.get? r).bind (fun row => row.get? c)

/-- Scan of one row of the assignment table for a device id, starting at
column `c` of row `r`; returns the logical ID of the first matching cell. -/
def scanRowForDevice (r c : Nat) (row : List Int) (d : Int) : Option LogicalID :=
  match row with
  | [] => none
  | v :: rest => if v = d then some ⟨r, c⟩ else scanRowForDevice r (c + 1) rest d

/-- Row-major scan of the assignment table for a device id, starting at row
`r`; returns the logical ID of the first matching cell. -/
def scanTableForDevice (r : Nat) (rows : List (List Int)) (d : Int) : Option LogicalID :=
  match rows with
  | [] => none
  | row :: rest =>
    match scanRowForDevice r 0 row d with
    | some l => some l
    | none => scanTableForDevice (r + 1) rest d

/-- Modelled from the spec: `DeviceAssignment::LogicalIdForDevice` (body in
`computation_placer.cc`, not among the sources) scans the assignment table
for the device id and returns the `(replica ID, computation ID)` pair of a
cell holding it, failing with NotFound if the id appears nowhere. -/
def LogicalIdForDevice (t : Array2D) (device_id : Int) : Except ErrorCode LogicalID :=
  match scanTableForDevice 0 t.data device_id with
  | some l => .ok l
  | none => .error .notFound

/-- Modelled from the spec: `DeviceAssignment::ReplicaIdForDevice` returns
the replica half of the logical ID, failing with NotFound under the same
absent-id condition as `LogicalIdForDevice`. -/
def ReplicaIdForDevice (t : Array2D) (device_id : Int) : Except ErrorCode Nat :=
  match LogicalIdForDevice t device_id with
  | .ok l => .ok l.replica_id
  | .error e => .error e

/-! ## Computation-placer registry (`ComputationPlacer::GetForPlatform`)

Only declarations are among the sources; the registry bodies live in
`computation_placer.cc`. The registry is modelled as explicit state. -/

/-- A constructed computation-placer instance. The `creation_function`
field records which registered creation function built the instance, and
`serial` is a process-wide construction counter making instances
distinguishable (object identity). -/
structure PlacerInstance where
  creation_function : Nat
  serial : Nat
deriving DecidableEq

/-- Source `ComputationPlacer::State`: the per-platform registry slot,
holding the lazily built placer and the registered creation function. -/
structure RegistryEntry where
  placer : Option PlacerInstance
  creation_function : Nat
deriving DecidableEq

/-- The process-wide placer registry: the platform-id-to-state map guarded
by `platform_computation_placer_mutex_`, plus the construction counter. -/
structure PlacerRegistry where
  entries : List (Nat × RegistryEntry)
  nextSerial : Nat
deriving DecidableEq

/-- Lookup of the registry slot registered for a platform id (first entry
with that id wins, mirroring a map lookup). -/
def lookupPlacerState (entries : List (Nat × RegistryEntry)) (pid : Nat) :
    Option RegistryEntry :=
  match entries with
  | [] => none
  | e :: rest => if e.1 = pid then some e.2 else lookupPlacerState rest pid

/-- Store a freshly constructed placer instance into the registry slot of a
platform id. -/
def setPlacerFor (entries : List (Nat × RegistryEntry)) (pid : Nat)
    (p : PlacerInstance) : List (Nat × RegistryEntry) :=
  entries.map (fun e => if e.1 = pid then (e.1, { e.2 with placer := some p }) else e)

/-- Modelled from the spec: `ComputationPlacer::RegisterComputationPlacer`
records a creation function for a platform id; registration happens once
per platform id (first caller wins). -/
def RegisterComputationPlacer (reg : PlacerRegistry) (pid fn : Nat) : PlacerRegistry :=
  match lookupPlacerState reg.entries pid with
  | some _ => reg
  | none =>
    { reg with
      entries := reg.entries ++ [(pid, { placer := none, creation_function := fn })] }

/-- Modelled from the spec: `ComputationPlacer::GetForPlatform` fails with
NotFound when no creation function was registered for the platform id;
otherwise it lazily constructs the placer singleton through the registered
creation function on the first call and returns the cached instance on
every later call. -/
def GetForPlatform (reg : PlacerRegistry) (pid : Nat) :
    PlacerRegistry × Except ErrorCode PlacerInstance :=
  match lookupPlacerState reg.entries pid with
  | none => (reg, .error .notFound)
  | some st =>
    match st.placer with
    | some p => (reg, .ok p)
    | none =>
      let p : PlacerInstance := ⟨st.creation_function, reg.nextSerial⟩
      ({ entries := setPlacerFor reg.entries pid p,
         nextSerial := reg.nextSerial + 1 },
       .ok p)

end ITexXla

namespace FPSimp

/-! ## Floating-point conversion simplifier (`simplify_fp_conversions.h`)

Only the pass declaration is among the sources. Modelled from the spec:
the pass collapses maximal chains of consecutive floating-point convert
instructions. A chain is a run of converts in which every interior convert
has exactly one user; a convert whose intermediate value has further
consumers breaks the chain and stays as the new chain head. Every convert
at the end of a chain of length ≥ 2 is rewritten to convert directly from
the chain's original input, dropping the intermediate conversions from the
data path. All instructions here carry floating-point element types. -/

/-- Operation of an instruction: a floating-point convert of one operand,
or any other operation with its operand list. Operands are instruction ids. -/
inductive Op where
  | convertOp (operand : Nat)
  | otherOp (operands : List Nat)
deriving DecidableEq

/-- An instruction: id, result element type, and operation. -/
structure Instr where
  id : Nat
  ty : Nat
  op : Op
deriving DecidableEq

/-- A computation is its list of instructions. -/
abbrev Graph := List Instr

/-- Forward operand edges of an instruction. -/
def operandsOf (i : Instr) : List Nat :=
  match i.op with
  | .convertOp o => [o]
  | .otherOp os => os

/-- Lookup of an instruction by id (first match). -/
def lookup (g : Graph) (x : Nat) : Option Instr :=
  match g with
  | [] => none
  | i :: rest => if i.id = x then some i else lookup rest x

/-- Number of users of instruction id `x`: instructions having `x` among
their operands (the derived reverse edges of the IR). -/
def userCount (g : Graph) (x : Nat) : Nat :=
  g.countP (fun i => decide (x ∈ operandsOf i))

/-- The operand of an operation when it is a convert. -/
def opOperand (op : Op) : Option Nat :=
  match op with
  | .convertOp o => some o
  | .otherOp _ => none

/-- The operand of instruction id `x` when `x` is a convert; `none` when
`x` is not in the graph or not a convert. -/
def convOperand (g : Graph) (x : Nat) : Option Nat :=
  (lookup g x).bind (fun i => opOperand i.op)

/-- True when instruction id `x` is a convert with exactly one user — the
condition under which a chain walk may pass through `x`. -/
def isSingleUserConvert (g : Graph) (x : Nat) : Bool :=
  (convOperand g x).isSome && (userCount g x == 1)

/-- Largest instruction id of the graph. -/
def maxId (g : Graph) : Nat :=
  g.foldr (fun i m => max i.id m) 0

/-- Walk from `x` up through single-user converts to the head of the
(purely linear part of the) conversion chain that produces `x`; a node
that is not a convert, or a convert with more than one consumer, stops
the walk and is the chain's input. -/
def chainInput (g : Graph) (fuel : Nat) (x : Nat) : Nat :=
  match fuel with
  | 0 => x
  | fuel + 1 =>
    match convOperand g x with
    | some o => if userCount g x == 1 then chainInput g fuel o else x
    | none => x

/-- One rewrite of the pass: a convert's operand is replaced by the input
of the linear conversion chain it terminates (a no-op for converts whose
operand is not a single-user convert). -/
def simplifyStep (g : Graph) (i : Instr) : Instr :=
  match i.op with
  | .convertOp o => { i with op := .convertOp (chainInput g (maxId g + 1) o) }
  | .otherOp _ => i

/-- The pass's `changed` report: some convert terminates a chain of
length ≥ 2, i.e. its operand is itself a single-user convert. -/
def changedFlag (g : Graph) : Bool :=
  g.any (fun i =>
    match i.op with
    | .convertOp o => isSingleUserConvert g o
    | .otherOp _ => false)

/-- Modelled from the spec: `SimplifyFPConversions::Run` (body not among
the sources) rewrites every convert that terminates a linear chain of
consecutive converts to convert directly from the chain's input, and
reports whether any chain of length ≥ 2 existed. -/
def SimplifyFPConversions (g : Graph) : Graph × Bool :=
  (g.map (simplifyStep g), changedFlag g)

/-- Declarative description of a linear conversion chain, written from the
claim: `IsConvChain g input l` says the ids in `l` are consecutive convert
instructions, the first converting `input`, each next one converting its
predecessor, and every interior member (all but the last) has exactly one
user (no consumer outside the chain). -/
def IsConvChain (g : Graph) (input : Nat) : List Nat → Prop
  | [] => False
  | [x] => ∃ i, lookup g x = some i ∧ i.op = .convertOp input
  | x :: y :: rest =>
    (∃ i, lookup g x = some i ∧ i.op = .convertOp input) ∧
      userCount g x = 1 ∧ IsConvChain g x (y :: rest)

/-- Def-before-use discipline of the IR: every operand id is strictly
smaller than the id of its user (the spec's def-before-use rule, with ids
in program order). -/
def WellOrdered (g : Graph) : Prop :=
  ∀ i ∈ g, ∀ o ∈ operandsOf i, o < i.id

end FPSimp

namespace CondCanon

/-! ## Conditional canonicalizer (`conditional_canonicalizer.h`)

Only the pass declaration is among the sources. Modelled from the spec:
the pass walks every conditional; each branch whose root is not a tuple is
wrapped in a single-element tuple (updating the branch's declared result
shape and the conditional's result shape), and a get-tuple-element(0) is
inserted between the conditional and every former direct (non
get-tuple-element) consumer. -/

/-- Instruction identities: original instructions, plus fresh ids for the
instructions the pass inserts (`aux owner j` is the `j`-th instruction
inserted on behalf of the instruction `owner`). -/
inductive Id where
  | orig (n : Nat)
  | aux (owner : Id) (j : Nat)
deriving DecidableEq

/-- Result shapes: a primitive element type or a tuple of shapes. -/
inductive Shape where
  | prim (t : Nat)
  | tuple (elts : List Shape)

/-- A branch computation owned by a conditional: whether its root
instruction is a tuple, and its declared result shape. -/
structure Branch where
  rootIsTuple : Bool
  resultShape : Shape

/-- Operations: conditional (owning its branch computations),
get-tuple-element, or anything else. -/
inductive COp where
  | conditional (branches : List Branch)
  | getTupleElement (idx : Nat)
  | other

/-- An instruction of the module. -/
structure Instr where
  id : Id
  op : COp
  shape : Shape
  operands : List Id

/-- A module is its list of instructions. -/
abbrev Module := List Instr

/-- A branch needs wrapping when its root is not already a tuple. -/
def branchNeedsWrap (b : Branch) : Bool := !b.rootIsTuple

/-- A conditional is non-canonical when some branch root is not a tuple. -/
def condNonCanonical (i : Instr) : Bool :=
  match i.op with
  | .conditional bs => bs.any branchNeedsWrap
  | _ => false

/-- Ids of the non-canonical conditionals of a module. -/
def nonCanonIds (m : Module) : List Id :=
  (m.filter condNonCanonical).map (fun i => i.id)

/-- Canonicalize one branch: wrap a non-tuple root in a single-element
tuple and update the branch's declared result shape to match. -/
def canonBranch (b : Branch) : Branch :=
  if b.rootIsTuple then b
  else { rootIsTuple := true, resultShape := .tuple [b.resultShape] }

/-- Reroute an operand: a reference to a non-canonical conditional is
redirected to the get-tuple-element(0) inserted for it. -/
def remapOperand (m : Module) (x : Id) : Id :=
  if x ∈ nonCanonIds m then Id.aux x 0 else x

/-- Rewrite of one instruction: a non-canonical conditional has its
branches wrapped, its result shape updated, and a get-tuple-element(0)
inserted after it; get-tuple-element consumers keep their operands; every
other instruction has its operands rerouted through the inserted
get-tuple-elements. -/
def rewriteInstr (m : Module) (i : Instr) : List Instr :=
  match i.op with
  | .conditional bs =>
    if bs.any branchNeedsWrap then
      [{ i with
          op := .conditional (bs.map canonBranch)
          shape := .tuple [i.shape]
          operands := i.operands.map (remapOperand m) },
       { id := Id.aux i.id 0, op := .getTupleElement 0,
         shape := i.shape, operands := [i.id] }]
    else
      [{ i with operands := i.operands.map (remapOperand m) }]
  | .getTupleElement _ => [i]
  | .other => [{ i with operands := i.operands.map (remapOperand m) }]

/-- Modelled from the spec: `ConditionalCanonicalizer::Run` (body not among
the sources) canonicalizes every conditional of the module and reports
whether any conditional was non-canonical. -/
def ConditionalCanonicalizer (m : Module) : Module × Bool :=
  (m.flatMap (rewriteInstr m), m.any condNonCanonical)

end CondCanon

namespace WhileSimp

/-! ## While-loop simplifier, zero-trip-count elimination
(`while_loop_simplifier.h`)

Only the pass declaration is among the sources. Modelled from the spec:
if static analysis of a while's condition computation proves the trip
count is zero (the condition constant-folds to false on the first
iteration), every use of the while's result is replaced by the while's
initial operand and the while instruction is deleted. One rewrite can
unlock another (the initial operand of a second loop may become a
constant), so the pass re-runs its sweep until no loop qualifies. -/

/-- Condition computations, abstracted to what the trip-count analysis can
constant-fold: a constant boolean root, a comparison of state element `i`
against a constant (foldable when the loop's initial value is a known
constant), or anything else (never foldable). -/
inductive CondExpr where
  | constBool (b : Bool)
  | ltParamConst (i : Nat) (k : Int)
  | unknown
deriving DecidableEq

/-- Operations: a constant tuple of integers, a while loop (owning its
condition expression and body computation id, with its initial operand),
or any other operation. -/
inductive WOp where
  | constant (v : List Int)
  | whileOp (cond : CondExpr) (body : Nat) (init : Nat)
  | other (operands : List Nat)
deriving DecidableEq

/-- An instruction of the module. -/
structure Instr where
  id : Nat
  op : WOp
deriving DecidableEq

/-- A module is its list of instructions. -/
abbrev Module := List Instr

/-- Forward operand edges. -/
def operandsOf (i : Instr) : List Nat :=
  match i.op with
  | .constant _ => []
  | .whileOp _ _ init => [init]
  | .other os => os

/-- Lookup of an instruction by id (first match). -/
def lookup (m : Module) (x : Nat) : Option Instr :=
  match m with
  | [] => none
  | i :: rest => if i.id = x then some i else lookup rest x

/-- True when the instruction is a while loop. -/
def isWhile (i : Instr) : Bool :=
  match i.op with
  | .whileOp _ _ _ => true
  | _ => false

/-- The constant value of instruction id `x`, when it is a constant. -/
def constValOf (m : Module) (x : Nat) : Option (List Int) :=
  (lookup m x).bind (fun i =>
    match i.op with
    | .constant v => some v
    | _ => none)

/-- The initial operand of instruction id `x`, when it is a while. -/
def initOf (m : Module) (x : Nat) : Option Nat :=
  (lookup m x).bind (fun i =>
    match i.op with
    | .whileOp _ _ init => some init
    | _ => none)

/-- Constant folding of a while condition on the first iteration: a
constant root folds to itself; a comparison against state element `i`
folds when the initial operand is a constant tuple with element `i`;
anything else is not statically known. -/
def evalCondAtInit (m : Module) (cond : CondExpr) (init : Nat) : Option Bool :=
  match cond with
  | .constBool b => some b
  | .ltParamConst i k =>
    (constValOf m init).bind (fun v => (v.get? i).map (fun a => decide (a < k)))
  | .unknown => none

/-- Trip count provably zero: the while's condition folds to false on the
first iteration. -/
def zeroTrip (m : Module) (i : Instr) : Bool :=
  match i.op with
  | .whileOp cond _ init => evalCondAtInit m cond init == some false
  | _ => false

/-- Ids of the whiles the sweep deletes. -/
def zeroTripIds (m : Module) : List Nat :=
  (m.filter (zeroTrip m)).map (fun i => i.id)

/-- Largest instruction id of the module. -/
def maxId (m : Module) : Nat :=
  m.foldr (fun i acc => max i.id acc) 0

/-- Resolve an operand through the deleted whiles: a reference to a deleted
while is replaced by (the resolution of) its initial operand, so that uses
of a zero-trip while end up at its initial value even when that value is
itself a deleted while. -/
def resolveInit (m : Module) (fuel : Nat) (x : Nat) : Nat :=
  match fuel with
  | 0 => x
  | fuel + 1 =>
    if x ∈ zeroTripIds m then
      match initOf m x with
      | some y => resolveInit m fuel y
      | none => x
    else x

/-- Rewire one surviving instruction's operands through `resolveInit`. -/
def remapInstr (m : Module) (i : Instr) : Instr :=
  { i with op :=
      match i.op with
      | .constant v => .constant v
      | .whileOp c b init => .whileOp c b (resolveInit m (maxId m + 1) init)
      | .other os => .other (os.map (resolveInit m (maxId m + 1))) }

/-- One sweep of the zero-trip-count elimination: delete every while whose
trip count is provably zero and reroute all remaining uses to the deleted
loops' initial operands; report whether anything was deleted. -/
def sweep (m : Module) : Module × Bool :=
  ((m.filter (fun i => !zeroTrip m i)).map (remapInstr m), m.any (zeroTrip m))

/-- Number of while instructions, the sweep fixpoint's termination measure. -/
def whileCount (m : Module) : Nat := m.countP isWhile

/-- Run the sweep to a fixpoint, within the given fuel. -/
def runAux : Nat → Module → Module × Bool
  | 0, m => (m, false)
  | fuel + 1, m =>
    if (sweep m).2 then ((runAux fuel (sweep m).1).1, true)
    else (m, false)

/-- Modelled from the spec: the zero-trip-count elimination of
`WhileLoopSimplifier::Run` (body not among the sources), run to a fixpoint
within the pass since one elimination can unlock another. -/
def WhileLoopSimplifier (m : Module) : Module × Bool :=
  runAux (whileCount m + 1) m

/-- Def-before-use discipline of the IR: every operand id is strictly
smaller than the id of its user. -/
def WellOrdered (m : Module) : Prop :=
  ∀ i ∈ m, ∀ o ∈ operandsOf i, o < i.id

end WhileSimp

namespace WhileFull

/-! ## While-loop simplifier, complete pass (`while_loop_simplifier.h`)

Only the pass declaration is among the sources. Modelled from the spec:
the pass applies four independent rewrites per while instruction —
zero-trip-count elimination, single-trip-count inlining, unused
tuple-element pruning and nested-tuple flattening — each re-checked after
the others may have changed the loop's shape, so the pass re-runs its
sweep until no rewrite applies. Loop state is modelled as a value term
(integer scalars, statically unknown scalars, nested tuples) carried
inline by the while instruction, and the condition and body computations
as the summaries the analyses consult. Instruction ids name dataflow
edges: replacing a while's operation in place models deleting the
instruction and rewiring its users to the replacement. -/

/-- Loop-carried values: integer scalars, statically unknown scalars, and
(possibly nested) tuples. -/
inductive Val where
  | intv (n : Int)
  | unknownv
  | tuplev (elems : List Val)

mutual

/-- Node count of a value term (the basis of the sweep fixpoint's
termination measure). -/
def valSize : Val → Nat
  | .intv _ => 1
  | .unknownv => 1
  | .tuplev es => 1 + valSizeList es

/-- Node count of a list of value terms. -/
def valSizeList : List Val → Nat
  | [] => 0
  | v :: vs => valSize v + valSizeList vs

end

mutual

/-- The scalar leaves of a value term, in order (the flattened state). -/
def leaves : Val → List Val
  | .intv n => [.intv n]
  | .unknownv => [.unknownv]
  | .tuplev es => leavesList es

/-- The scalar leaves of a list of value terms, concatenated. -/
def leavesList : List Val → List Val
  | [] => []
  | v :: vs => leaves v ++ leavesList vs

end

/-- True for tuple values. -/
def isTuple : Val → Bool
  | .tuplev _ => true
  | _ => false

/-- Condition computations, abstracted to what the trip-count analysis can
constant-fold: a constant boolean root, a comparison of top-level state
element `p` against a constant, or anything else (never foldable). -/
inductive CondExpr where
  | constBool (b : Bool)
  | ltParamConst (p : Nat) (c : Int)
  | unknown

/-- Summary of a while's body computation, as the analyses consult it: per
top-level state element, whether the body reads it beyond passing it
through unchanged as loop state, and, when statically known, the body's
effect as a per-element integer increment. -/
structure Body where
  reads : List Bool
  step : Option (List Int)

/-- Top-level element `p` of a tuple value. -/
def elemAt (v : Val) (p : Nat) : Option Val :=
  match v with
  | .tuplev es => es.get? p
  | _ => none

/-- The integer carried by a scalar value, when statically known. -/
def asInt : Option Val → Option Int
  | some (.intv n) => some n
  | _ => none

/-- Constant folding of a while condition at a concrete state value. -/
def evalCond (cond : CondExpr) (v : Val) : Option Bool :=
  match cond with
  | .constBool b => some b
  | .ltParamConst p c =>
    match asInt (elemAt v p) with
    | some n => some (decide (n < c))
    | none => none
  | .unknown => none

/-- One body step on one scalar state element: add the known increment; a
statically unknown scalar stays unknown; a tuple element defeats the
increment summary. -/
def stepElem (d : Int) : Val → Option Val
  | .intv n => some (.intv (n + d))
  | .unknownv => some .unknownv
  | .tuplev _ => none

/-- Collect a list of optional values, failing if any entry fails. -/
def seqOpt {α : Type} : List (Option α) → Option (List α)
  | [] => some []
  | none :: _ => none
  | some a :: rest =>
    match seqOpt rest with
    | some bs => some (a :: bs)
    | none => none

/-- The body applied once to a state value, when the increment summary is
statically known and the state is a tuple of scalars. -/
def applyBody (b : Body) (v : Val) : Option Val :=
  match b.step, v with
  | some ds, .tuplev es =>
    if es.length = ds.length then
      match seqOpt (List.zipWith stepElem ds es) with
      | some es1 => some (.tuplev es1)
      | none => none
    else none
  | _, _ => none

/-- Operations: a computed value (also the residue of an eliminated
while), a while loop carrying its condition summary, body summary and
inline initial value, a get-tuple-element reading element `idx` of
instruction `operand`, a reconstruction of a formerly nested element from
the listed flattened leaf positions of instruction `operand`, or anything
else. -/
inductive WOp where
  | valOp (v : Val)
  | whileOp (cond : CondExpr) (body : Body) (init : Val)
  | gte (idx : Nat) (operand : Nat)
  | reconstruct (idxs : List Nat) (operand : Nat)
  | other (operands : List Nat)

/-- An instruction of the module. -/
structure Instr where
  id : Nat
  op : WOp

/-- A module is its list of instructions. -/
abbrev Module := List Instr

/-- Lookup of an instruction by id (first match). -/
def lookup (m : Module) (x : Nat) : Option Instr :=
  match m with
  | [] => none
  | i :: rest => if i.id = x then some i else lookup rest x

/-- True when the instruction reads top-level element `j` of instruction
`x`'s result: a matching get-tuple-element, a reconstruction listing `j`,
or any other use of the whole result (which conservatively reads every
element). -/
def readsElem (x j : Nat) (i : Instr) : Bool :=
  match i.op with
  | .gte jr o => jr == j && o == x
  | .reconstruct js o => o == x && js.contains j
  | .other os => os.contains x
  | _ => false

/-- True when element `j` of while `x` is read at some use of the while's
result outside the loop. -/
def elemUsedOutside (m : Module) (x j : Nat) : Bool :=
  m.any (readsElem x j)

/-- True when the condition summary reads top-level element `j`. -/
def condReads (cond : CondExpr) (j : Nat) : Bool :=
  match cond with
  | .ltParamConst p _ => p == j
  | _ => false

/-- True when element `j` of while `x` is read inside the body (beyond
being passed through unchanged), read by the condition, or read at a use
of the while's result outside the loop. -/
def elemUsed (m : Module) (x : Nat) (cond : CondExpr) (body : Body) (j : Nat) : Bool :=
  body.reads.getD j false || condReads cond j || elemUsedOutside m x j

/-- The kept (used) top-level elements of a width-`w` while state,
ascending. -/
def keptElems (m : Module) (x : Nat) (cond : CondExpr) (body : Body) (w : Nat) : List Nat :=
  (List.range w).filter (elemUsed m x cond body)

/-- Renumbering after pruning: the new index of a kept element is the
number of kept elements before it. -/
def rankUsed (used : Nat → Bool) (j : Nat) : Nat :=
  ((List.range j).filter used).length

/-- Keep the list entries at the used positions, `off` being the position
of the head. -/
def pruneList {α : Type} (used : Nat → Bool) : Nat → List α → List α
  | _, [] => []
  | off, a :: rest =>
    if used off then a :: pruneList used (off + 1) rest
    else pruneList used (off + 1) rest

/-- The condition after pruning: its parameter index renumbered in
lock-step (the condition's parameter is read, hence kept). -/
def pruneCond (used : Nat → Bool) (cond : CondExpr) : CondExpr :=
  match cond with
  | .ltParamConst p c => .ltParamConst (rankUsed used p) c
  | c => c

/-- The body summary after pruning: read flags and known increments kept
at the used positions only, in lock-step. -/
def pruneBody (used : Nat → Bool) (w : Nat) (b : Body) : Body :=
  { reads := ((List.range w).filter used).map (fun j => b.reads.getD j false)
    step := b.step.map (fun ds => ((List.range w).filter used).map (fun j => ds.getD j 0)) }

/-- Flat position of top-level element `p` after flattening: the number of
leaves of the elements before it. -/
def flatIndex (es : List Val) (p : Nat) : Nat :=
  ((es.take p).map (fun e => (leaves e).length)).sum

/-- The flattened positions of the leaves of top-level element `p`. -/
def leafSpan (es : List Val) (p : Nat) : List Nat :=
  (List.range (match es.get? p with
    | some e => (leaves e).length
    | none => 0)).map (fun t => flatIndex es p + t)

/-- The condition after flattening: a comparison of a scalar element moves
to that element's flat position; a comparison of a tuple element (or out
of range) is not expressible over the flat state and becomes unknown. -/
def flattenCond (es : List Val) (cond : CondExpr) : CondExpr :=
  match cond with
  | .ltParamConst p c =>
    match es.get? p with
    | some (.tuplev _) => .unknown
    | some _ => .ltParamConst (flatIndex es p) c
    | none => .unknown
  | c => c

/-- The body summary after flattening: each leaf inherits its parent
element's read flag; the rewritten body reconstructs the nested state via
freshly inserted get-tuple-element/tuple sequences, so the increment
summary becomes unknown (the added instructions are left for later tuple
simplification, as the spec allows). -/
def flattenBody (es : List Val) (b : Body) : Body :=
  { reads := (List.range es.length).flatMap
      (fun j => (leafSpan es j).map (fun _ => b.reads.getD j false))
    step := none }

/-- The decision the pass takes for one while instruction: replace it by a
value (trip-count rewrites), prune its unused state elements, flatten its
nested state, or keep it. -/
inductive Decision where
  | elim (v : Val)
  | prune
  | flatten
  | keep

/-- The trip-count analysis: the replacement value when the trip count is
provably 0 (condition folds to false at the initial value, so the result
is the initial operand) or provably 1 (condition folds to true at the
initial value and to false after one body step, so the result is one
inlined copy of the body applied to the initial operand). -/
def decideTrip (cond : CondExpr) (body : Body) (init : Val) : Option Val :=
  match evalCond cond init with
  | some false => some init
  | some true =>
    match applyBody body init with
    | some v1 =>
      match evalCond cond v1 with
      | some false => some v1
      | _ => none
    | none => none
  | none => none

/-- The structural rewrites, checked when no trip-count rewrite applies:
prune when the tuple state has an element never read inside the body,
by the condition, or at any outside use of the while's result; otherwise
flatten when the state is a nested tuple. -/
def checkStructural (m : Module) (x : Nat) (cond : CondExpr) (body : Body)
    (init : Val) : Decision :=
  match init with
  | .tuplev es =>
    if (keptElems m x cond body es.length).length < es.length then .prune
    else if es.any isTuple then .flatten
    else .keep
  | _ => .keep

/-- The pass's decision for one instruction: the four rewrites are tried
in the spec's order — zero-trip elimination, single-trip inlining, unused
tuple-element pruning, nested-tuple flattening. -/
def decideWhile (m : Module) (i : Instr) : Decision :=
  match i.op with
  | .whileOp cond body init =>
    match decideTrip cond body init with
    | some v => .elim v
    | none => checkStructural m i.id cond body init
  | _ => .keep

/-- How a user of instruction `o` must renumber a top-level element index
this sweep: after pruning, indices shift to their rank among the kept
elements; after flattening, indices move to the flat positions. -/
inductive IdxMap where
  | ranks (used : Nat → Bool)
  | flat (es : List Val)
  | keep

/-- The index renumbering a user of instruction `o` must apply this sweep,
per `o`'s own decision. -/
def idxMapOf (m : Module) (o : Nat) : IdxMap :=
  match lookup m o with
  | some s =>
    match s.op with
    | .whileOp cond body _ =>
      match decideWhile m s with
      | .prune => .ranks (elemUsed m s.id cond body)
      | .flatten =>
        match s.op with
        | .whileOp _ _ (.tuplev es) => .flat es
        | _ => .keep
      | _ => .keep
    | _ => .keep
  | none => .keep

/-- Rewrite of one user instruction: its element reads renumbered in
lock-step with its target's pruning or flattening; a get-tuple-element of
a formerly nested element becomes a reconstruction of that element from
its flattened leaves. -/
def userRewrite (m : Module) (i : Instr) : Instr :=
  match i.op with
  | .gte j o =>
    match idxMapOf m o with
    | .ranks used => { i with op := .gte (rankUsed used j) o }
    | .flat es =>
      match es.get? j with
      | some (.tuplev _) => { i with op := .reconstruct (leafSpan es j) o }
      | _ => { i with op := .gte (flatIndex es j) o }
    | .keep => i
  | .reconstruct js o =>
    match idxMapOf m o with
    | .ranks used => { i with op := .reconstruct (js.map (rankUsed used)) o }
    | _ => i
  | _ => i

/-- The pruned form of a while operation: the unused state elements
dropped from the initial value, the body summary and the condition in
lock-step. -/
def prunedOp (m : Module) (x : Nat) (cond : CondExpr) (body : Body)
    (es : List Val) : WOp :=
  .whileOp (pruneCond (elemUsed m x cond body) cond)
    (pruneBody (elemUsed m x cond body) es.length body)
    (.tuplev (pruneList (elemUsed m x cond body) 0 es))

/-- The flattened form of a while operation: the state replaced by the
tuple of its leaves, the condition and body summary moved to the flat
positions. -/
def flattenedOp (cond : CondExpr) (body : Body) (es : List Val) : WOp :=
  .whileOp (flattenCond es cond) (flattenBody es body) (.tuplev (leavesList es))

/-- Rewrite of one instruction: an eliminated while becomes its
replacement value (zero trip: the initial operand; single trip: the
inlined body applied to it); pruning drops the unused state elements from
the initial value, the body summary and the condition in lock-step;
flattening replaces the state by the tuple of its leaves and moves the
condition and body summary to the flat positions; anything else is
renumbered as a user when its target rewrites. -/
def rewriteOne (m : Module) (i : Instr) : Instr :=
  match decideWhile m i with
  | .elim v => { i with op := .valOp v }
  | .prune =>
    match i.op with
    | .whileOp cond body (.tuplev es) =>
      { i with op := prunedOp m i.id cond body es }
    | _ => i
  | .flatten =>
    match i.op with
    | .whileOp cond body (.tuplev es) =>
      { i with op := flattenedOp cond body es }
    | _ => i
  | .keep => userRewrite m i

/-- True when the pass rewrites this instruction as a while. -/
def whileChanges (m : Module) (i : Instr) : Bool :=
  match decideWhile m i with
  | .keep => false
  | _ => true

/-- One sweep: apply to every while its first applicable rewrite, in
parallel, renumbering the element reads of their users in lock-step;
report whether any while was rewritten. -/
def sweep (m : Module) : Module × Bool :=
  (m.map (rewriteOne m), m.any (whileChanges m))

/-- The sweep fixpoint's termination measure of one instruction: each
rewritten while either disappears or strictly shrinks its state term. -/
def instrMeasure (i : Instr) : Nat :=
  match i.op with
  | .whileOp _ _ init => 1 + valSize init
  | _ => 0

/-- The sweep fixpoint's termination measure of the module. -/
def moduleMeasure (m : Module) : Nat :=
  (m.map instrMeasure).sum

/-- Run the sweep to a fixpoint, within the given fuel. -/
def runAux : Nat → Module → Module × Bool
  | 0, m => (m, false)
  | fuel + 1, m =>
    if (sweep m).2 then ((runAux fuel (sweep m).1).1, true)
    else (m, false)

/-- Modelled from the spec: `WhileLoopSimplifier::Run` (body not among the
sources) applies four independent, sequentially-applied rewrites per while
instruction — zero-trip-count elimination, single-trip-count inlining,
unused tuple-element pruning, nested-tuple flattening — each re-checked
after the others may have changed the loop's shape, until none applies. -/
def WhileLoopSimplifier (m : Module) : Module × Bool :=
  runAux (moduleMeasure m + 1) m

end WhileFull

namespace StableSort

/-! ## Stable-sort expander (`stable_sort_expander.h`)

Only the pass declaration is among the sources. Modelled from the spec at
two levels. Graph level: the expander (an `OpExpanderPass`) matches
instructions whose opcode is sort and whose `is_stable` flag is set, and
replaces each with: an iota (synthetic index) operand, a new unstable sort
over the old operands plus the iota, and a tuple of get-tuple-elements
stripping the synthetic column, so the replacement's public result shape
equals the original sort's shape. Value level: the comparator extension is
modelled on lists — rows are augmented with their original index, the
comparator falls back to the index on equal keys, and the underlying sort
primitive is simulated as order-scrambling for equal keys (it sorts the
reversed list). -/

/-- Instruction identities: original instructions plus fresh ids for the
inserted instructions (`aux owner j`). -/
inductive Id where
  | orig (n : Nat)
  | aux (owner : Id) (j : Nat)
deriving DecidableEq

/-- Operations. A sort records its `is_stable` flag and operand count; the
comparator computation is owned by the sort and abstracted here (the value
level models its semantics). -/
inductive SOp where
  | sortOp (is_stable : Bool) (numOperands : Nat)
  | iotaOp
  | getTupleElement (idx : Nat)
  | tupleOp
  | other
deriving DecidableEq

/-- An instruction: id, operation, public result shape (the element types
of the result columns), and operands. -/
structure Instr where
  id : Id
  op : SOp
  shape : List Nat
  operands : List Id
deriving DecidableEq

/-- A module is its list of instructions. -/
abbrev Module := List Instr

/-- Lookup of an instruction by id (first match). -/
def lookup (m : Module) (x : Id) : Option Instr :=
  match m with
  | [] => none
  | i :: rest => if i.id = x then some i else lookup rest x

/-- Source-described matching predicate of the expander: opcode is sort
and the `is_stable` attribute is set. -/
def InstructionMatchesPattern (i : Instr) : Bool :=
  match i.op with
  | .sortOp s _ => s
  | _ => false

/-- The element type of the synthetic iota (index) column. -/
def idxType : Nat := 32

/-- The operand arity of the stable sort an id refers to, when it does. -/
def matchingSortArity (m : Module) (x : Id) : Option Nat :=
  (lookup m x).bind (fun i =>
    match i.op with
    | .sortOp true k => some k
    | _ => none)

/-- Reroute an operand: a reference to a replaced stable sort is
redirected to the tuple wrapper inserted for it. -/
def remapOperand (m : Module) (x : Id) : Id :=
  match matchingSortArity m x with
  | some k => Id.aux x (2 + k)
  | none => x

/-- The new unstable sort built for a replaced stable sort: same columns
plus the synthetic index column, `is_stable` cleared. -/
def expandedSort (m : Module) (c : Instr) (k : Nat) : Instr :=
  { id := Id.aux c.id 1, op := .sortOp false (k + 1),
    shape := c.shape ++ [idxType],
    operands := c.operands.map (remapOperand m) ++ [Id.aux c.id 0] }

/-- The get-tuple-elements reading the original columns of the new sort. -/
def expandedGtes (c : Instr) (k : Nat) : List Instr :=
  (List.range k).map (fun j =>
    { id := Id.aux c.id (2 + j), op := .getTupleElement j,
      shape := [c.shape.getD j 0], operands := [Id.aux c.id 1] })

/-- The tuple wrapper stripping the synthetic column; it is the
replacement users are rewired to, and its public shape is the original
sort's shape. -/
def expandedWrapper (c : Instr) (k : Nat) : Instr :=
  { id := Id.aux c.id (2 + k), op := .tupleOp, shape := c.shape,
    operands := (List.range k).map (fun j => Id.aux c.id (2 + j)) }

/-- Expansion of one instruction: a matching sort becomes iota, new sort,
get-tuple-elements and wrapper; every other instruction only has its
operands rerouted to the wrappers. -/
def expandInstr (m : Module) (i : Instr) : List Instr :=
  match i.op with
  | .sortOp true k =>
    { id := Id.aux i.id 0, op := .iotaOp, shape := [idxType],
      operands := ([] : List Id) } ::
      expandedSort m i k :: (expandedGtes i k ++ [expandedWrapper i k])
  | _ => [{ i with operands := i.operands.map (remapOperand m) }]

/-- Modelled from the spec: the `StableSortExpander` pass (an
`OpExpanderPass`; bodies not among the sources) expands every stable sort
and reports whether any instruction matched. -/
def StableSortExpander (m : Module) : Module × Bool :=
  (m.flatMap (expandInstr m), m.any InstructionMatchesPattern)

/-! Value level: rows, augmentation with original indices, the extended
comparator, and the order-scrambling underlying sort primitive. -/

/-- The comparator extended with the synthetic index fallback: order by
key first; on equal keys, by original index (ascending). Elements are
`(original index, (key, payload))`. -/
def leAug {β : Type} (p q : Nat × (Nat × β)) : Prop :=
  p.2.1 < q.2.1 ∨ (p.2.1 = q.2.1 ∧ p.1 ≤ q.1)

instance leAug_decidable {β : Type} : DecidableRel (leAug (β := β)) := by
  intro p q
  unfold leAug
  exact inferInstance

instance leAug_total {β : Type} : IsTotal (Nat × (Nat × β)) leAug := by
  constructor
  intro p q
  unfold leAug
  rcases Nat.lt_trichotomy p.2.1 q.2.1 with h | h | h
  · exact Or.inl (Or.inl h)
  · rcases Nat.le_total p.1 q.1 with h2 | h2
    · exact Or.inl (Or.inr ⟨h, h2⟩)
    · exact Or.inr (Or.inr ⟨h.symm, h2⟩)
  · exact Or.inr (Or.inl h)

instance leAug_trans {β : Type} : IsTrans (Nat × (Nat × β)) leAug := by
  constructor
  intro p q r hpq hqr
  unfold leAug at hpq hqr ⊢
  rcases hpq with h1 | ⟨h1, h1'⟩ <;> rcases hqr with h2 | ⟨h2, h2'⟩
  · exact Or.inl (by omega)
  · exact Or.inl (by omega)
  · exact Or.inl (by omega)
  · exact Or.inr ⟨by omega, by omega⟩

/-- The underlying sort primitive, simulated as order-scrambling for
equal keys: it sorts the reversed input, so ties of the comparator come
out in reversed input order. -/
def scramblingSort {α : Type} (r : α → α → Prop) [DecidableRel r]
    (l : List α) : List α :=
  List.insertionSort r l.reverse

/-- The augmented rows after the underlying (unstable, scrambling) sort:
rows are paired with their original index (the iota column) and sorted by
the extended comparator. -/
def sortedAug {β : Type} (l : List (Nat × β)) : List (Nat × (Nat × β)) :=
  scramblingSort leAug l.enum

/-- The expanded stable sort's public output: sort the augmented rows with
the extended comparator using the scrambling primitive, then strip the
synthetic index column. -/
def stableSortViaExpansion {β : Type} (l : List (Nat × β)) : List (Nat × β) :=
  (sortedAug l).map Prod.snd

end StableSort

namespace SortSimp

/-! ## Sort simplifier (`sort_simplifier.h`)

Only the pass declaration is among the sources. Modelled from the spec:
for each multi-operand sort, the output positions never read through a
get-tuple-element are removal candidates; if at least one position stays,
at least one goes, and no candidate's values feed the comparator, the sort
is rebuilt with only the used operands (comparator re-parameterized in
lock-step) and the remaining get-tuple-element consumers are renumbered to
the new positions. Sorts whose result is entirely dead are left to the
dead-code pass, as are single-operand sorts. -/

/-- The data of a sort instruction this pass inspects: its operand count
and, per operand position, whether the comparator body reads that
operand's values. -/
structure SortData where
  numOperands : Nat
  comparatorReads : List Bool
deriving DecidableEq

/-- Operations: sort, get-tuple-element (reading `idx` of the sort given
by `operand`), or anything else. -/
inductive TOp where
  | sortOp (d : SortData)
  | gte (idx : Nat) (operand : Nat)
  | other (operands : List Nat)
deriving DecidableEq

/-- An instruction of the module. -/
structure Instr where
  id : Nat
  op : TOp
deriving DecidableEq

/-- A module is its list of instructions. -/
abbrev Module := List Instr

/-- Lookup of an instruction by id (first match). -/
def lookup (m : Module) (x : Nat) : Option Instr :=
  match m with
  | [] => none
  | i :: rest => if i.id = x then some i else lookup rest x

/-- True when the instruction reads output position `j` of sort id `x`. -/
def readsPosition (x j : Nat) (i : Instr) : Bool :=
  match i.op with
  | .gte j' o => j' == j && o == x
  | _ => false

/-- True when some instruction reads output position `j` of sort id `x`. -/
def positionUsed (m : Module) (x j : Nat) : Bool :=
  m.any (readsPosition x j)

/-- The used output positions of sort id `x` with `k` operands, ascending. -/
def usedPositions (m : Module) (x k : Nat) : List Nat :=
  (List.range k).filter (fun j => positionUsed m x j)

/-- The firing condition: a multi-operand sort with at least one used and
at least one unused position, where no unused position's operand values
feed the comparator. -/
def fires (m : Module) (i : Instr) : Bool :=
  match i.op with
  | .sortOp d =>
    decide (2 ≤ d.numOperands) &&
    decide ((usedPositions m i.id d.numOperands).length < d.numOperands) &&
    decide (1 ≤ (usedPositions m i.id d.numOperands).length) &&
    (List.range d.numOperands).all
      (fun j => positionUsed m i.id j || !(d.comparatorReads.getD j false))
  | _ => false

/-- New index of an old position: its rank among the kept positions. -/
def rankIn (used : List Nat) (j : Nat) : Nat :=
  used.countP (fun u => decide (u < j))

/-- The kept positions of the sort an id refers to, when that sort fires. -/
def firedSortUsed (m : Module) (o : Nat) : Option (List Nat) :=
  (lookup m o).bind (fun s =>
    match s.op with
    | .sortOp d =>
      if fires m s then some (usedPositions m s.id d.numOperands) else none
    | _ => none)

/-- The rebuilt sort data of a firing sort: only the used operand
positions are kept, with the comparator re-parameterized in lock-step. -/
def rebuiltData (m : Module) (x : Nat) (d : SortData) : SortData :=
  { numOperands := (usedPositions m x d.numOperands).length
    comparatorReads :=
      (usedPositions m x d.numOperands).map
        (fun j => d.comparatorReads.getD j false) }

/-- Rewrite of one instruction: a firing sort keeps only its used operand
positions; a get-tuple-element reading a firing sort is renumbered to the
kept position's rank; all else is untouched. -/
def rewriteInstr (m : Module) (i : Instr) : Instr :=
  match i.op with
  | .sortOp d =>
    if fires m i then { i with op := .sortOp (rebuiltData m i.id d) }
    else i
  | .gte j o =>
    match firedSortUsed m o with
    | some used => { i with op := .gte (rankIn used j) o }
    | none => i
  | .other _ => i

/-- Modelled from the spec: `SortSimplifier::Run` (body not among the
sources) removes the unused operands of every qualifying sort and reports
whether any sort was rebuilt. -/
def SortSimplifier (m : Module) : Module × Bool :=
  (m.map (rewriteInstr m), m.any (fires m))

end SortSimp

section DeviceClaims


/-! ## Claim theorems for the device-assignment constructor and platform kinds -/

open ITexXla

/-- C1 counterexample: constructing a `DeviceAssignment` with
`replica_count = 0` and `computation_count = 1` makes the `ITEX_CHECK_GT`
fail, aborting the process; no error status is returned to the caller, so
the claim that such a construction "returns an error result … rather than
aborting" is false at this input. -/
theorem c1_construct_zero_aborts_not_error :
    deviceAssignmentConstruct 0 1 = .checkFail ∧
      (deviceAssignmentConstruct 0 1).isErrorStatus = false := by
  constructor <;> rfl

/-- C1 (amended): every `DeviceAssignment` construction with
`replica_count ≤ 0` or `computation_count ≤ 0` fails the `ITEX_CHECK_GT`
and aborts the process (it does not return an error status); a construction
with both counts positive succeeds with a table of exactly those
dimensions, filled with `-1`. -/
theorem c1_construct_check_behavior (replica_count computation_count : Int) :
    (replica_count ≤ 0 ∨ computation_count ≤ 0 →
      deviceAssignmentConstruct replica_count computation_count = .checkFail) ∧
    (0 < replica_count → 0 < computation_count →
      deviceAssignmentConstruct replica_count computation_count =
        .ok (mkFilledArray2D replica_count.toNat computation_count.toNat (-1)) ∧
      ∀ t, deviceAssignmentConstruct replica_count computation_count = .ok t →
        t.height = replica_count.toNat ∧
          (0 < computation_count.toNat → t.width = computation_count.toNat)) := by
  constructor
  · intro h
    simp only [deviceAssignmentConstruct, if_pos h]
  · intro hr hc
    have hcond : ¬(replica_count ≤ 0 ∨ computation_count ≤ 0) := by
      push_neg
      exact ⟨hr, hc⟩
    constructor
    · simp only [deviceAssignmentConstruct, if_neg hcond]
    · intro t ht
      simp only [deviceAssignmentConstruct, if_neg hcond, Outcome.ok.injEq] at ht
      subst ht
      refine ⟨by simp [Array2D.height, mkFilledArray2D], ?_⟩
      intro hw
      have hrpos : 0 < replica_count.toNat := by omega
      unfold Array2D.width mkFilledArray2D
      obtain ⟨m, hm⟩ := Nat.exists_eq_succ_of_ne_zero (Nat.pos_iff_ne_zero.mp hrpos)
      simp [hm, List.replicate_succ]

/-- C1 witness: the amended theorem applied at `(0, 1)` (abort branch) and
at `(2, 3)` (success branch with the right dimensions). -/
theorem c1_construct_check_behavior_witness :
    deviceAssignmentConstruct 0 1 = .checkFail ∧
      deviceAssignmentConstruct 2 3 =
        .ok (mkFilledArray2D (2 : Int).toNat (3 : Int).toNat (-1)) :=
  ⟨(c1_construct_check_behavior 0 1).1 (Or.inl (by decide)),
   ((c1_construct_check_behavior 2 3).2 (by decide) (by decide)).1⟩

/-- C9: for every kind with integer value below `kSize`, rendering it with
`PlatformKindString` and parsing the result with `PlatformKindFromString`
yields the kind back, and parsing any string that is the rendering of no
kind below `kSize` yields `kInvalid`. -/
theorem c9_platform_kind_string_roundtrip :
    (∀ k : PlatformKind, k.toNat < PlatformKind.kSize.toNat →
      PlatformKindFromString (PlatformKindString k) = k) ∧
    (∀ s : String,
      (∀ k : PlatformKind, k.toNat < PlatformKind.kSize.toNat →
        PlatformKindString k ≠ s) →
      PlatformKindFromString s = .kInvalid) := by
  constructor
  · intro k hk
    cases k <;> first
      | rfl
      | (exact absurd hk (by decide))
  · intro s hs
    unfold PlatformKindFromString
    have hfind : (List.range PlatformKind.kSize.toNat).find?
        (fun i => PlatformKindString (platformKindOfNat i) == s) = none := by
      rw [List.find?_eq_none]
      intro i hi
      rw [List.mem_range] at hi
      have hi7 : i < 7 := hi
      have hne : PlatformKindString (platformKindOfNat i) ≠ s := by
        apply hs
        interval_cases i <;> decide
      simpa using hne
    rw [hfind]

/-- C9 witness: the round-trip at `kCuda`, and the `kInvalid` fallback at a
string that renders no kind. -/
theorem c9_platform_kind_string_roundtrip_witness :
    PlatformKindFromString (PlatformKindString .kCuda) = .kCuda ∧
      PlatformKindFromString "Banana" = .kInvalid :=
  ⟨c9_platform_kind_string_roundtrip.1 .kCuda (by decide),
   c9_platform_kind_string_roundtrip.2 "Banana" (by decide)⟩

/-- C10: every device-runnable platform kind is runnable, and the
device-runnable kinds are exactly the runnable kinds minus `kHost`. -/
theorem c10_runnable_on_device_implies_runnable :
    ∀ k : PlatformKind,
      (PlatformIsRunnableOnDevice k = true → PlatformIsRunnable k = true) ∧
      PlatformIsRunnableOnDevice k =
        (PlatformIsRunnable k && !(k == PlatformKind.kHost)) := by
  decide

/-- C10 witness: the implication applied at the concrete kind `kSycl`. -/
theorem c10_runnable_on_device_implies_runnable_witness :
    PlatformIsRunnable .kSycl = true :=
  (c10_runnable_on_device_implies_runnable .kSycl).1 rfl

/-! ## Claim theorems for device-id lookup (C7) -/

/-- A row scan that finds a hit reports the row it was started in and a
column holding the device id. -/
theorem scanRowForDevice_eq_some {r : Nat} {d : Int} :
    ∀ (row : List Int) (c : Nat) (lid : LogicalID),
      scanRowForDevice r c row d = some lid →
      lid.replica_id = r ∧
        ∃ j, row.get? j = some d ∧ lid.computation_id = c + j := by
  intro row
  induction row with
  | nil => intro c lid h; simp [scanRowForDevice] at h
  | cons v rest ih =>
    intro c lid h
    by_cases hv : v = d
    · simp only [scanRowForDevice, if_pos hv] at h
      cases h
      exact ⟨rfl, 0, by simp [hv], by simp⟩
    · simp only [scanRowForDevice, if_neg hv] at h
      obtain ⟨hrep, j, hj, hcomp⟩ := ih (c + 1) lid h
      exact ⟨hrep, j + 1, by simpa using hj, by omega⟩

/-- A row scan that misses means the device id is not in the row. -/
theorem scanRowForDevice_eq_none {r : Nat} {d : Int} :
    ∀ (row : List Int) (c : Nat),
      scanRowForDevice r c row d = none → d ∉ row := by
  intro row
  induction row with
  | nil => intro c _ h; simp at h
  | cons v rest ih =>
    intro c h
    by_cases hv : v = d
    · simp [scanRowForDevice, if_pos hv] at h
    · simp only [scanRowForDevice, if_neg hv] at h
      intro hmem
      rcases List.mem_cons.mp hmem with hveq | hrest
      · exact hv hveq.symm
      · exact ih (c + 1) h hrest

/-- A table scan that finds a hit reports a cell of the table holding the
device id, offset by the starting row. -/
theorem scanTableForDevice_eq_some {d : Int} :
    ∀ (rows : List (List Int)) (r : Nat) (lid : LogicalID),
      scanTableForDevice r rows d = some lid →
      ∃ i row, rows.get? i = some row ∧ lid.replica_id = r + i ∧
        ∃ j, row.get? j = some d ∧ lid.computation_id = j := by
  intro rows
  induction rows with
  | nil => intro r lid h; simp [scanTableForDevice] at h
  | cons row rest ih =>
    intro r lid h
    unfold scanTableForDevice at h
    cases hrow : scanRowForDevice r 0 row d with
    | some l =>
      rw [hrow] at h
      cases h
      obtain ⟨hrep, j, hj, hcomp⟩ := scanRowForDevice_eq_some row 0 lid hrow
      exact ⟨0, row, by simp, by omega, j, hj, by omega⟩
    | none =>
      rw [hrow] at h
      obtain ⟨i, row', hrow', hrep, j, hj, hcomp⟩ := ih (r + 1) lid h
      exact ⟨i + 1, row', by simpa using hrow', by omega, j, hj, hcomp⟩

/-- A table scan that misses means no row of the table holds the device id. -/
theorem scanTableForDevice_eq_none {d : Int} :
    ∀ (rows : List (List Int)) (r : Nat),
      scanTableForDevice r rows d = none → ∀ row ∈ rows, d ∉ row := by
  intro rows
  induction rows with
  | nil => intro r _ row hrow; simp at hrow
  | cons first rest ih =>
    intro r h row' hrow'
    unfold scanTableForDevice at h
    cases hrow : scanRowForDevice r 0 first d with
    | some l => rw [hrow] at h; cases h
    | none =>
      rw [hrow] at h
      rcases List.mem_cons.mp hrow' with hre | hrest
      · rw [hre]
        exact scanRowForDevice_eq_none first 0 hrow
      · exact ih (r + 1) h row' hrest

/-- C7: on a device id present in some cell of the assignment table,
`LogicalIdForDevice` returns the `(replica ID, computation ID)` pair of a
cell holding that id (and `ReplicaIdForDevice` its replica half); on a
device id in no cell, both fail with NotFound. -/
theorem c7_logical_id_for_device (t : ITexXla.Array2D) (d : Int) :
    ((∃ r c, cellAt t r c = some d) →
      ∃ lid, LogicalIdForDevice t d = .ok lid ∧
        cellAt t lid.replica_id lid.computation_id = some d ∧
        ReplicaIdForDevice t d = .ok lid.replica_id) ∧
    ((∀ r c, cellAt t r c ≠ some d) →
      LogicalIdForDevice t d = .error .notFound ∧
        ReplicaIdForDevice t d = .error .notFound) := by
  constructor
  · rintro ⟨r, c, hcell⟩
    cases hscan : scanTableForDevice 0 t.data d with
    | none =>
      exfalso
      unfold cellAt at hcell
      cases hget : t.data.get? r with
      | none => rw [hget] at hcell; simp at hcell
      | some row =>
        rw [hget] at hcell
        have hd : row.get? c = some d := by simpa using hcell
        exact scanTableForDevice_eq_none t.data 0 hscan row
          (List.get?_mem hget) (List.get?_mem hd)
    | some lid =>
      refine ⟨lid, ?_, ?_, ?_⟩
      · simp [LogicalIdForDevice, hscan]
      · obtain ⟨i, row, hrow, hrep, j, hj, hcomp⟩ :=
          scanTableForDevice_eq_some t.data 0 lid hscan
        unfold cellAt
        rw [hrep, hcomp, Nat.zero_add, hrow]
        exact hj
      · simp [ReplicaIdForDevice, LogicalIdForDevice, hscan]
  · intro habsent
    cases hscan : scanTableForDevice 0 t.data d with
    | some lid =>
      exfalso
      obtain ⟨i, row, hrow, hrep, j, hj, hcomp⟩ :=
        scanTableForDevice_eq_some t.data 0 lid hscan
      refine habsent i j ?_
      unfold cellAt
      rw [hrow]
      exact hj
    | none =>
      constructor
      · simp [LogicalIdForDevice, hscan]
      · simp [ReplicaIdForDevice, LogicalIdForDevice, hscan]

/-- C7 witness: on the table `[[4, 5], [6, 7]]` the present id `6` is found
with its logical ID, and the absent id `9` fails with NotFound. -/
theorem c7_logical_id_for_device_witness :
    (∃ lid, LogicalIdForDevice ⟨[[4, 5], [6, 7]]⟩ 6 = .ok lid ∧
        cellAt ⟨[[4, 5], [6, 7]]⟩ lid.replica_id lid.computation_id = some 6 ∧
        ReplicaIdForDevice ⟨[[4, 5], [6, 7]]⟩ 6 = .ok lid.replica_id) ∧
      (LogicalIdForDevice ⟨[[4, 5], [6, 7]]⟩ 9 = .error .notFound ∧
        ReplicaIdForDevice ⟨[[4, 5], [6, 7]]⟩ 9 = .error .notFound) :=
  ⟨(c7_logical_id_for_device ⟨[[4, 5], [6, 7]]⟩ 6).1 ⟨1, 0, by decide⟩,
   (c7_logical_id_for_device ⟨[[4, 5], [6, 7]]⟩ 9).2 (by
      intro r c
      rcases r with _ | _ | r <;> rcases c with _ | _ | c <;>
        simp [cellAt])⟩

/-! ## Claim theorems for the placer registry (C8) -/

/-- Storing a placer into the slot of a platform id makes a later lookup of
that id see the stored instance. -/
theorem lookupPlacerState_setPlacerFor (entries : List (Nat × ITexXla.RegistryEntry))
    (pid : Nat) (p : ITexXla.PlacerInstance) :
    lookupPlacerState (setPlacerFor entries pid p) pid =
      (lookupPlacerState entries pid).map (fun st => { st with placer := some p }) := by
  induction entries with
  | nil => rfl
  | cons e rest ih =>
    by_cases h : e.1 = pid
    · simp [setPlacerFor, lookupPlacerState, h]
    · simp only [setPlacerFor, List.map_cons, if_neg h, lookupPlacerState]
      simpa [setPlacerFor] using ih

/-- Appending a registration for a previously absent platform id makes its
lookup succeed with the new slot. -/
theorem lookupPlacerState_append_fresh (entries : List (Nat × ITexXla.RegistryEntry))
    (pid : Nat) (e : ITexXla.RegistryEntry)
    (h : lookupPlacerState entries pid = none) :
    lookupPlacerState (entries ++ [(pid, e)]) pid = some e := by
  induction entries with
  | nil => simp [lookupPlacerState]
  | cons x rest ih =>
    by_cases hx : x.1 = pid
    · simp [lookupPlacerState, hx] at h
    · simp only [lookupPlacerState, hx, if_neg] at h
      simp only [List.cons_append, lookupPlacerState, if_neg hx]
      exact ih h

/-- First `GetForPlatform` call on a registered platform whose placer is not
built yet: the call constructs the instance from the slot's creation
function and the current serial, caches it, and returns it. -/
theorem getForPlatform_first_call (reg : ITexXla.PlacerRegistry) (pid : Nat)
    (st : ITexXla.RegistryEntry)
    (hl : lookupPlacerState reg.entries pid = some st) (hp : st.placer = none) :
    GetForPlatform reg pid =
      ({ entries := setPlacerFor reg.entries pid ⟨st.creation_function, reg.nextSerial⟩,
         nextSerial := reg.nextSerial + 1 },
       .ok ⟨st.creation_function, reg.nextSerial⟩) := by
  simp only [GetForPlatform, hl, hp]

/-- C8: `GetForPlatform` fails with NotFound on a platform id with no
registered creation function; on a registered id it lazily constructs one
placer instance through the registered creation function on the first call,
and every later call returns that cached instance with the registry
unchanged. -/
theorem c8_get_for_platform_singleton (reg : ITexXla.PlacerRegistry) (pid : Nat) :
    (lookupPlacerState reg.entries pid = none →
      GetForPlatform reg pid = (reg, .error .notFound)) ∧
    (∀ st p, lookupPlacerState reg.entries pid = some st → st.placer = some p →
      GetForPlatform reg pid = (reg, .ok p)) ∧
    (∀ st, lookupPlacerState reg.entries pid = some st → st.placer = none →
      ∃ reg' p, GetForPlatform reg pid = (reg', .ok p) ∧
        p.creation_function = st.creation_function ∧
        GetForPlatform reg' pid = (reg', .ok p)) ∧
    (∀ fn, lookupPlacerState reg.entries pid = none →
      lookupPlacerState (RegisterComputationPlacer reg pid fn).entries pid =
        some { placer := none, creation_function := fn }) := by
  refine ⟨?_, ?_, ?_, ?_⟩
  · intro h
    simp only [GetForPlatform, h]
  · intro st p hl hp
    simp only [GetForPlatform, hl, hp]
  · intro st hl hp
    refine ⟨_, ⟨st.creation_function, reg.nextSerial⟩,
      getForPlatform_first_call reg pid st hl hp, rfl, ?_⟩
    unfold GetForPlatform
    simp only [lookupPlacerState_setPlacerFor, hl, Option.map_some']
  · intro fn h
    unfold RegisterComputationPlacer
    rw [h]
    exact lookupPlacerState_append_fresh reg.entries pid _ h

/-- C8 witness: on the empty registry, platform id `5` is NotFound; after
registering creation function `9` for it, the first call constructs an
instance recording creation function `9` and the second call returns the
same instance with the registry unchanged. -/
theorem c8_get_for_platform_singleton_witness :
    GetForPlatform ⟨[], 0⟩ 5 = (⟨[], 0⟩, .error .notFound) ∧
      (∃ reg' p,
        GetForPlatform ⟨[(5, { placer := none, creation_function := 9 })], 0⟩ 5 =
            (reg', .ok p) ∧
          p.creation_function = 9 ∧
          GetForPlatform reg' 5 = (reg', .ok p)) :=
  ⟨(c8_get_for_platform_singleton ⟨[], 0⟩ 5).1 rfl,
   (c8_get_for_platform_singleton
       ⟨[(5, { placer := none, creation_function := 9 })], 0⟩ 5).2.2.1
     { placer := none, creation_function := 9 } rfl rfl⟩


end DeviceClaims

namespace FPSimp

/-- A successful lookup returns a member of the graph carrying the id. -/
theorem lookup_eq_some_mem {g : Graph} {x : Nat} {i : Instr}
    (h : lookup g x = some i) : i ∈ g ∧ i.id = x := by
  induction g with
  | nil => simp [lookup] at h
  | cons a rest ih =>
    unfold lookup at h
    by_cases ha : a.id = x
    · rw [if_pos ha] at h
      cases h
      exact ⟨List.mem_cons_self _ _, ha⟩
    · rw [if_neg ha] at h
      obtain ⟨hm, hid⟩ := ih h
      exact ⟨List.mem_cons_of_mem _ hm, hid⟩

/-- Every member's id is bounded by `maxId`. -/
theorem id_le_maxId {g : Graph} {i : Instr} (h : i ∈ g) : i.id ≤ maxId g := by
  induction g with
  | nil => cases h
  | cons a rest ih =>
    show i.id ≤ max a.id (maxId rest)
    rcases List.mem_cons.mp h with rfl | hr
    · exact Nat.le_max_left _ _
    · exact le_trans (ih hr) (Nat.le_max_right _ _)

/-- An operand of a member instruction has at least one user. -/
theorem userCount_pos_of_operand {g : Graph} {i : Instr} {o : Nat}
    (hm : i ∈ g) (ho : o ∈ operandsOf i) : 1 ≤ userCount g o :=
  List.countP_pos_iff.mpr ⟨i, hm, by simpa using ho⟩

/-- A convert's operand is an operand of a member instruction. -/
theorem convOperand_operand_mem {g : Graph} {x o : Nat}
    (hc : convOperand g x = some o) : ∃ i, i ∈ g ∧ o ∈ operandsOf i := by
  unfold convOperand at hc
  cases hl : lookup g x with
  | none => rw [hl] at hc; cases hc
  | some i =>
    rw [hl, Option.some_bind] at hc
    cases hop : i.op with
    | convertOp o' =>
      rw [hop] at hc
      unfold opOperand at hc
      cases hc
      exact ⟨i, (lookup_eq_some_mem hl).1, by simp [operandsOf, hop]⟩
    | otherOp os =>
      rw [hop] at hc
      unfold opOperand at hc
      cases hc

/-- With def-before-use ids, a convert's operand id is smaller than its own. -/
theorem convOperand_lt {g : Graph} (hw : WellOrdered g) {x o : Nat}
    (hc : convOperand g x = some o) : o < x := by
  unfold convOperand at hc
  cases hl : lookup g x with
  | none => rw [hl] at hc; cases hc
  | some i =>
    rw [hl, Option.some_bind] at hc
    obtain ⟨hm, hid⟩ := lookup_eq_some_mem hl
    cases hop : i.op with
    | convertOp o' =>
      rw [hop] at hc
      unfold opOperand at hc
      cases hc
      have := hw i hm o (by simp [operandsOf, hop])
      omega
    | otherOp os =>
      rw [hop] at hc
      unfold opOperand at hc
      cases hc

/-- Characterization of the walk-through condition. -/
theorem singleUser_char (g : Graph) (x : Nat) :
    isSingleUserConvert g x = true ↔
      ∃ o, convOperand g x = some o ∧ userCount g x = 1 := by
  unfold isSingleUserConvert
  cases hc : convOperand g x with
  | none => simp
  | some o => simp [hc]

/-- A walk from a node that is not a single-user convert stops at once. -/
theorem chainInput_stop {g : Graph} {x : Nat}
    (h : isSingleUserConvert g x = false) (f : Nat) :
    chainInput g (f + 1) x = x := by
  unfold chainInput
  cases hc : convOperand g x with
  | none => rfl
  | some o =>
    show (if (userCount g x == 1) = true then chainInput g f o else x) = x
    rw [if_neg]
    intro hu
    have htrue : isSingleUserConvert g x = true :=
      (singleUser_char g x).mpr ⟨o, hc, by simpa using hu⟩
    rw [h] at htrue
    cases htrue

/-- One step of the walk through a single-user convert. -/
theorem chainInput_step {g : Graph} {x o : Nat} (f : Nat)
    (hc : convOperand g x = some o) (hu : userCount g x = 1) :
    chainInput g (f + 1) x = chainInput g f o := by
  simp only [chainInput, hc]
  rw [if_pos (by simpa using hu)]

/-- With def-before-use ids the walk is insensitive to the fuel once the
fuel exceeds the starting id. -/
theorem chainInput_fuel_inv {g : Graph} (hw : WellOrdered g) :
    ∀ x f f', x < f → x < f' → chainInput g f x = chainInput g f' x := by
  intro x
  induction x using Nat.strong_induction_on with
  | _ x ih =>
    intro f f' hf hf'
    obtain ⟨f1, rfl⟩ : ∃ k, f = k + 1 := ⟨f - 1, by omega⟩
    obtain ⟨f1', rfl⟩ : ∃ k, f' = k + 1 := ⟨f' - 1, by omega⟩
    by_cases hs : isSingleUserConvert g x = true
    · obtain ⟨o, hc, hu⟩ := (singleUser_char g x).mp hs
      rw [chainInput_step f1 hc hu, chainInput_step f1' hc hu]
      have hox : o < x := convOperand_lt hw hc
      exact ih o hox f1 f1' (by omega) (by omega)
    · have hfalse := Bool.eq_false_iff.mpr hs
      rw [chainInput_stop hfalse f1, chainInput_stop hfalse f1']

/-- Walk results are never single-user converts (stopping condition). -/
theorem chainInput_stopOk {g : Graph} (hw : WellOrdered g) :
    ∀ f x, x < f → isSingleUserConvert g (chainInput g f x) = false := by
  intro f
  induction f with
  | zero => intro x hx; omega
  | succ f ih =>
    intro x hx
    by_cases hs : isSingleUserConvert g x = true
    · obtain ⟨o, hc, hu⟩ := (singleUser_char g x).mp hs
      rw [chainInput_step f hc hu]
      have hox : o < x := convOperand_lt hw hc
      exact ih o (by omega)
    · have hfalse := Bool.eq_false_iff.mpr hs
      rw [chainInput_stop hfalse f]
      exact hfalse

/-- A walk result is the start node or a node with at least one user. -/
theorem chainInput_lands {g : Graph} :
    ∀ f x, chainInput g f x = x ∨ 1 ≤ userCount g (chainInput g f x) := by
  intro f
  induction f with
  | zero => intro x; exact Or.inl rfl
  | succ f ih =>
    intro x
    by_cases hs : isSingleUserConvert g x = true
    · obtain ⟨o, hc, hu⟩ := (singleUser_char g x).mp hs
      rw [chainInput_step f hc hu]
      rcases ih o with heq | hge
      · rw [heq]
        obtain ⟨i, hm, ho⟩ := convOperand_operand_mem hc
        exact Or.inr (userCount_pos_of_operand hm ho)
      · exact Or.inr hge
    · rw [chainInput_stop (Bool.eq_false_iff.mpr hs) f]
      exact Or.inl rfl

end FPSimp

namespace FPSimp

/-- The rewrite step never changes an instruction's id. -/
theorem simplifyStep_id (g : Graph) (i : Instr) : (simplifyStep g i).id = i.id := by
  unfold simplifyStep
  cases hop : i.op <;> rfl

/-- The rewrite step never changes an instruction's element type. -/
theorem simplifyStep_ty (g : Graph) (i : Instr) : (simplifyStep g i).ty = i.ty := by
  unfold simplifyStep
  cases hop : i.op <;> rfl

/-- The rewrite step leaves non-convert instructions untouched. -/
theorem simplifyStep_other {g : Graph} {i : Instr} {os : List Nat}
    (hop : i.op = .otherOp os) : simplifyStep g i = i := by
  unfold simplifyStep
  rw [hop]

/-- The rewrite step on a convert: its operand becomes the chain input. -/
theorem simplifyStep_convert {g : Graph} {i : Instr} {o : Nat}
    (hop : i.op = .convertOp o) :
    simplifyStep g i = { i with op := .convertOp (chainInput g (maxId g + 1) o) } := by
  unfold simplifyStep
  rw [hop]

/-- Rebuilding a convert with its own operand is the identity. -/
theorem instr_eta_convert {i : Instr} {o : Nat} (hop : i.op = .convertOp o) :
    { i with op := Op.convertOp o } = i := by
  cases i
  simp only at hop
  rw [hop]

/-- Lookup commutes with the (id-preserving) rewrite map. -/
theorem lookup_map (g g0 : Graph) (x : Nat) :
    lookup (g0.map (simplifyStep g)) x = (lookup g0 x).map (simplifyStep g) := by
  induction g0 with
  | nil => rfl
  | cons a rest ih =>
    show lookup (simplifyStep g a :: rest.map (simplifyStep g)) x = _
    unfold lookup
    by_cases ha : a.id = x
    · rw [if_pos (by rw [simplifyStep_id]; exact ha), if_pos ha]
      rfl
    · rw [if_neg (by rw [simplifyStep_id]; exact ha), if_neg ha]
      exact ih

/-- User count in the rewritten graph, as a count over the old graph. -/
theorem userCount_map_eq (g g0 : Graph) (w : Nat) :
    userCount (g0.map (simplifyStep g)) w =
      g0.countP (fun i => decide (w ∈ operandsOf (simplifyStep g i))) := by
  unfold userCount
  rw [List.countP_map]
  rfl

/-- A count of one pins down the unique satisfying member. -/
theorem countP_eq_one_unique {α : Type} {l : List α} {p : α → Bool}
    (h : l.countP p = 1) {a b : α} (ha : a ∈ l) (hpa : p a = true)
    (hb : b ∈ l) (hpb : p b = true) : a = b := by
  rw [List.countP_eq_length_filter] at h
  obtain ⟨c, hc⟩ := List.length_eq_one.mp h
  have ha' : a ∈ l.filter p := List.mem_filter.mpr ⟨ha, hpa⟩
  have hb' : b ∈ l.filter p := List.mem_filter.mpr ⟨hb, hpb⟩
  rw [hc] at ha' hb'
  simp only [List.mem_singleton] at ha' hb'
  rw [ha', hb']

/-- The rewrite cannot remove users from a node at which walks stop. -/
theorem userCount_map_ge {g : Graph} {w : Nat}
    (hstop : isSingleUserConvert g w = false) :
    userCount g w ≤ userCount (g.map (simplifyStep g)) w := by
  rw [userCount_map_eq]
  unfold userCount
  apply List.countP_mono_left
  intro i hm hp
  rw [decide_eq_true_eq] at hp ⊢
  cases hop : i.op with
  | otherOp os => rw [simplifyStep_other hop]; exact hp
  | convertOp o =>
    have hwo : w = o := by simpa [operandsOf, hop] using hp
    subst hwo
    have hstay : chainInput g (maxId g + 1) w = w := chainInput_stop hstop (maxId g)
    simp [simplifyStep_convert hop, operandsOf, hstay]

/-- The rewrite cannot give users to a user-less node. -/
theorem userCount_map_zero {g : Graph} {w : Nat}
    (hzero : userCount g w = 0) :
    userCount (g.map (simplifyStep g)) w = 0 := by
  rw [userCount_map_eq, List.countP_eq_zero]
  intro i hm
  rw [Bool.not_eq_true, decide_eq_false_iff_not]
  intro hp
  have husers : ∀ j ∈ g, w ∉ operandsOf j := by
    intro j hj hwj
    have := userCount_pos_of_operand hj hwj
    omega
  cases hop : i.op with
  | otherOp os =>
    rw [simplifyStep_other hop] at hp
    exact husers i hm hp
  | convertOp o =>
    rw [simplifyStep_convert hop] at hp
    have hwWo' : w = chainInput g (maxId g + 1) o := by
      simpa [operandsOf] using hp
    have hwWo := hwWo'.symm
    rcases chainInput_lands (g := g) (maxId g + 1) o with heq | hge
    · rw [heq] at hwWo
      exact husers i hm (by simp [operandsOf, hop, hwWo])
    · rw [hwWo] at hge
      omega

/-- Core preservation fact: the input of a chain computed in `g` is not a
single-user convert of the rewritten graph either, so no new collapsing
opportunity appears. -/
theorem stopOk_preserved {g : Graph} (hw : WellOrdered g) {o : Nat}
    (hlt : o < maxId g + 1) :
    isSingleUserConvert (g.map (simplifyStep g))
      (chainInput g (maxId g + 1) o) = false := by
  set w := chainInput g (maxId g + 1) o with hwdef
  have hstop : isSingleUserConvert g w = false := chainInput_stopOk hw _ o hlt
  rw [Bool.eq_false_iff]
  intro htrue
  obtain ⟨o2, hc2, hu2⟩ := (singleUser_char _ w).mp htrue
  unfold convOperand at hc2
  rw [lookup_map] at hc2
  cases hl : lookup g w with
  | none => rw [hl] at hc2; cases hc2
  | some i =>
    rw [hl] at hc2
    simp only [Option.map_some', Option.some_bind] at hc2
    cases hop : i.op with
    | otherOp os =>
      rw [simplifyStep_other hop, hop] at hc2
      unfold opOperand at hc2
      cases hc2
    | convertOp o3 =>
      have hcg : convOperand g w = some o3 := by
        unfold convOperand
        rw [hl, Option.some_bind, hop]
        rfl
      have hne1 : userCount g w ≠ 1 := by
        intro h1
        have : isSingleUserConvert g w = true :=
          (singleUser_char g w).mpr ⟨o3, hcg, h1⟩
        rw [hstop] at this
        cases this
      rcases Nat.eq_zero_or_pos (userCount g w) with hz | hpos
      · have := userCount_map_zero hz
        rw [this] at hu2
        cases hu2
      · have h2 : 2 ≤ userCount g w := by omega
        have := userCount_map_ge hstop
        omega

end FPSimp

namespace FPSimp

/-- Mapping a function that fixes every member is the identity. -/
theorem map_eq_self_of_mem {α : Type} {l : List α} {f : α → α}
    (h : ∀ a ∈ l, f a = a) : l.map f = l := by
  induction l with
  | nil => rfl
  | cons a rest ih =>
    simp only [List.map_cons, h a (List.mem_cons_self a rest)]
    rw [ih (fun b hb => h b (List.mem_cons_of_mem a hb))]

/-- The head of a chain converts the chain's input. -/
theorem chain_head {g : Graph} {input x : Nat} {xs : List Nat}
    (h : IsConvChain g input (x :: xs)) :
    ∃ i, lookup g x = some i ∧ i.op = .convertOp input := by
  cases xs with
  | nil => exact h
  | cons b rest => exact h.1

/-- Every chain member is a convert whose operand walks to the same place
as the chain's input. -/
theorem chain_member_struct {g : Graph} (hw : WellOrdered g) :
    ∀ (l : List Nat) (input : Nat), IsConvChain g input l →
      ∀ x ∈ l, ∃ i p, lookup g x = some i ∧ i.op = .convertOp p ∧
        chainInput g (maxId g + 1) p = chainInput g (maxId g + 1) input := by
  intro l
  induction l with
  | nil => intro input h; exact h.elim
  | cons a l' ih =>
    intro input h x hx
    cases l' with
    | nil =>
      obtain ⟨i, hl, hop⟩ := h
      rcases List.mem_singleton.mp hx with rfl
      exact ⟨i, input, hl, hop, rfl⟩
    | cons b rest =>
      obtain ⟨⟨i, hl, hop⟩, hu, hch⟩ := h
      have hca : convOperand g a = some input := by
        unfold convOperand
        rw [hl, Option.some_bind, hop]
        rfl
      have hWa : chainInput g (maxId g + 1) a = chainInput g (maxId g + 1) input := by
        rw [chainInput_step (maxId g) hca hu]
        have hax : input < a := convOperand_lt hw hca
        have haM : a ≤ maxId g := by
          obtain ⟨hm, hid⟩ := lookup_eq_some_mem hl
          have := id_le_maxId hm
          omega
        exact chainInput_fuel_inv hw input (maxId g) (maxId g + 1) (by omega) (by omega)
      rcases List.mem_cons.mp hx with rfl | hx'
      · exact ⟨i, input, hl, hop, rfl⟩
      · obtain ⟨j, p, hlj, hopj, hWp⟩ := ih a hch x hx'
        exact ⟨j, p, hlj, hopj, by rw [hWp, hWa]⟩

/-- Every interior chain member is a single-user convert, and some graph
member converts it (its chain successor). -/
theorem chain_interior_single {g : Graph} :
    ∀ (l : List Nat) (input : Nat), IsConvChain g input l →
      ∀ x ∈ l.dropLast,
        isSingleUserConvert g x = true ∧ ∃ j, j ∈ g ∧ j.op = .convertOp x := by
  intro l
  induction l with
  | nil => intro input h; exact h.elim
  | cons a l' ih =>
    intro input h x hx
    cases l' with
    | nil => simp [List.dropLast] at hx
    | cons b rest =>
      obtain ⟨⟨i, hl, hop⟩, hu, hch⟩ := h
      have hx2 : x ∈ a :: (b :: rest).dropLast := hx
      rcases List.mem_cons.mp hx2 with rfl | hx'
      · refine ⟨?_, ?_⟩
        · apply (singleUser_char g x).mpr
          refine ⟨input, ?_, hu⟩
          unfold convOperand
          rw [hl, Option.some_bind, hop]
          rfl
        · obtain ⟨j, hlj, hopj⟩ := chain_head hch
          exact ⟨j, (lookup_eq_some_mem hlj).1, hopj⟩
      · exact ih a hch x hx'

/-- C4: every maximal linear chain of two or more consecutive converts (no
interior convert with an outside consumer, chain input not itself a
single-user convert) is collapsed by the pass: each chain member now
converts directly from the chain's original input (so the final convert
produces the chain's final output type straight from the input), the pass
reports a change, and the interior converts are dropped from the data
path (no users remain). A convert whose operand has further consumers
keeps that operand as its chain input, so only the linear sub-chain
collapses. -/
theorem c4_fp_conversion_chain_collapse (g : Graph) (hw : WellOrdered g)
    (input : Nat) (l : List Nat) (hchain : IsConvChain g input l)
    (hmax : isSingleUserConvert g input = false) :
    (∀ x ∈ l, ∀ i, lookup g x = some i →
      lookup (SimplifyFPConversions g).1 x =
        some { i with op := Op.convertOp input }) ∧
    (2 ≤ l.length → (SimplifyFPConversions g).2 = true) ∧
    (∀ x ∈ l.dropLast, userCount (SimplifyFPConversions g).1 x = 0) := by
  have hWin : chainInput g (maxId g + 1) input = input :=
    chainInput_stop hmax (maxId g)
  refine ⟨?_, ?_, ?_⟩
  · intro x hx i hli
    obtain ⟨i', p, hl', hop', hWp⟩ := chain_member_struct hw l input hchain x hx
    rw [hli] at hl'
    cases hl'
    have hpin : chainInput g (maxId g + 1) p = input := by rw [hWp, hWin]
    show lookup (g.map (simplifyStep g)) x = _
    rw [lookup_map, hli]
    simp only [Option.map_some']
    rw [simplifyStep_convert hop', hpin]
  · intro hlen
    obtain ⟨a, b, rest, rfl⟩ : ∃ a b rest, l = a :: b :: rest := by
      cases l with
      | nil => simp at hlen
      | cons a l' =>
        cases l' with
        | nil => simp at hlen
        | cons b rest => exact ⟨a, b, rest, rfl⟩
    obtain ⟨⟨i, hl, hop⟩, hu, hch⟩ := hchain
    have hsingle_a : isSingleUserConvert g a = true := by
      apply (singleUser_char g a).mpr
      refine ⟨input, ?_, hu⟩
      unfold convOperand
      rw [hl, Option.some_bind, hop]
      rfl
    obtain ⟨j, hlj, hopj⟩ := chain_head hch
    show changedFlag g = true
    unfold changedFlag
    apply List.any_eq_true.mpr
    refine ⟨j, (lookup_eq_some_mem hlj).1, ?_⟩
    rw [hopj]
    exact hsingle_a
  · intro x hx
    obtain ⟨hsingle, j0, hj0mem, hopj0⟩ := chain_interior_single l input hchain x hx
    show userCount (g.map (simplifyStep g)) x = 0
    rw [userCount_map_eq, List.countP_eq_zero]
    intro u humem
    rw [Bool.not_eq_true, decide_eq_false_iff_not]
    intro hp
    cases hopu : u.op with
    | otherOp os =>
      rw [simplifyStep_other hopu] at hp
      obtain ⟨o, hc, hu1⟩ := (singleUser_char g x).mp hsingle
      have huniq : u = j0 := by
        apply countP_eq_one_unique (p := fun i => decide (x ∈ operandsOf i)) hu1
          humem (by simpa using hp) hj0mem (by simp [operandsOf, hopj0])
      rw [huniq] at hopu
      rw [hopu] at hopj0
      cases hopj0
    | convertOp o =>
      rw [simplifyStep_convert hopu] at hp
      have hxW : x = chainInput g (maxId g + 1) o := by
        simpa [operandsOf] using hp
      have hoBound : o < maxId g + 1 := by
        have h1 := hw u humem o (by simp [operandsOf, hopu])
        have h2 := id_le_maxId humem
        omega
      have hstop := chainInput_stopOk hw (maxId g + 1) o hoBound
      rw [← hxW] at hstop
      rw [hsingle] at hstop
      cases hstop

/-- C4 witness: on the concrete graph with a chain `1 → 2 → 3` of converts
over input `1`, the pass rewrites the final convert (id 3) to convert `1`
directly, reports a change, and leaves the interior convert (id 2)
user-less. -/
theorem c4_fp_conversion_chain_collapse_witness :
    (lookup (SimplifyFPConversions
        [⟨1, 10, .otherOp []⟩, ⟨2, 11, .convertOp 1⟩, ⟨3, 12, .convertOp 2⟩]).1 3 =
      some ⟨3, 12, .convertOp 1⟩) ∧
    (SimplifyFPConversions
        [⟨1, 10, .otherOp []⟩, ⟨2, 11, .convertOp 1⟩, ⟨3, 12, .convertOp 2⟩]).2 = true ∧
    userCount (SimplifyFPConversions
        [⟨1, 10, .otherOp []⟩, ⟨2, 11, .convertOp 1⟩, ⟨3, 12, .convertOp 2⟩]).1 2 = 0 := by
  have hw : WellOrdered
      [⟨1, 10, .otherOp []⟩, ⟨2, 11, .convertOp 1⟩, ⟨3, 12, .convertOp 2⟩] := by
    unfold WellOrdered
    decide
  have hchain : IsConvChain
      [⟨1, 10, .otherOp []⟩, ⟨2, 11, .convertOp 1⟩, ⟨3, 12, .convertOp 2⟩] 1 [2, 3] := by
    refine ⟨⟨⟨2, 11, .convertOp 1⟩, by decide, rfl⟩, by decide, ?_⟩
    exact ⟨⟨3, 12, .convertOp 2⟩, by decide, rfl⟩
  have h := c4_fp_conversion_chain_collapse
    [⟨1, 10, .otherOp []⟩, ⟨2, 11, .convertOp 1⟩, ⟨3, 12, .convertOp 2⟩]
    hw 1 [2, 3] hchain (by decide)
  exact ⟨h.1 3 (by decide) ⟨3, 12, .convertOp 2⟩ (by decide),
    h.2.1 (by decide), h.2.2 2 (by decide)⟩

end FPSimp

namespace FPSimp

/-- After one run of the pass no collapsing opportunity remains: the
operand of every convert of the rewritten graph is not a single-user
convert of the rewritten graph. -/
theorem no_opportunity_after_run {g : Graph} (hw : WellOrdered g)
    {u : Instr} (hu : u ∈ g) {w : Nat}
    (hop : (simplifyStep g u).op = .convertOp w) :
    isSingleUserConvert (g.map (simplifyStep g)) w = false := by
  cases hopu : u.op with
  | otherOp os =>
    rw [simplifyStep_other hopu, hopu] at hop
    cases hop
  | convertOp o =>
    rw [simplifyStep_convert hopu] at hop
    have hop' : Op.convertOp (chainInput g (maxId g + 1) o) = .convertOp w := hop
    have hwEq : chainInput g (maxId g + 1) o = w := by
      injection hop'
    have hbound : o < maxId g + 1 := by
      have h1 := hw u hu o (by simp [operandsOf, hopu])
      have h2 := id_le_maxId hu
      omega
    have hres := stopOk_preserved hw hbound
    rw [hwEq] at hres
    exact hres

/-- Idempotence of the fp-conversion simplifier: a second run directly
after a first changes nothing and reports `changed = false`. -/
theorem simplifyFP_idempotent {g : Graph} (hw : WellOrdered g) :
    SimplifyFPConversions (SimplifyFPConversions g).1 =
      ((SimplifyFPConversions g).1, false) := by
  have hfix : ∀ u' ∈ g.map (simplifyStep g),
      simplifyStep (g.map (simplifyStep g)) u' = u' := by
    intro u' hmem
    obtain ⟨u, hu, rfl⟩ := List.mem_map.mp hmem
    cases hopu : (simplifyStep g u).op with
    | otherOp os => exact simplifyStep_other hopu
    | convertOp w =>
      have hstop := no_opportunity_after_run hw hu hopu
      rw [simplifyStep_convert hopu]
      have hstay : chainInput (g.map (simplifyStep g))
          (maxId (g.map (simplifyStep g)) + 1) w = w :=
        chainInput_stop hstop _
      rw [hstay]
      exact instr_eta_convert hopu
  have hchanged : changedFlag (g.map (simplifyStep g)) = false := by
    unfold changedFlag
    rw [List.any_eq_false]
    intro u' hmem
    obtain ⟨u, hu, rfl⟩ := List.mem_map.mp hmem
    cases hopu : (simplifyStep g u).op with
    | otherOp os => simp [hopu]
    | convertOp w =>
      have hstop := no_opportunity_after_run hw hu hopu
      simp [hopu, hstop]
  show (List.map (simplifyStep (g.map (simplifyStep g))) (g.map (simplifyStep g)),
      changedFlag (g.map (simplifyStep g))) = (g.map (simplifyStep g), false)
  rw [map_eq_self_of_mem hfix, hchanged]

end FPSimp

namespace CondCanon

/-- Canonicalized branches always have tuple roots. -/
theorem canonBranch_rootIsTuple (b : Branch) : (canonBranch b).rootIsTuple = true := by
  unfold canonBranch
  by_cases hb : b.rootIsTuple
  · rw [if_pos hb]
    exact hb
  · rw [if_neg hb]

/-- Equation: rewriting a non-canonical conditional wraps its branches,
updates its shape, reroutes its operands, and emits its get-tuple-element. -/
theorem rewriteInstr_cond_wrap {m : Module} {i : Instr} {bs : List Branch}
    (hop : i.op = .conditional bs) (hwrap : bs.any branchNeedsWrap = true) :
    rewriteInstr m i =
      [{ i with
          op := .conditional (bs.map canonBranch)
          shape := Shape.tuple [i.shape]
          operands := i.operands.map (remapOperand m) },
       { id := Id.aux i.id 0, op := .getTupleElement 0,
         shape := i.shape, operands := [i.id] }] := by
  simp only [rewriteInstr, hop, hwrap, if_true]

/-- Equation: rewriting an already-canonical conditional only reroutes
its operands. -/
theorem rewriteInstr_cond_nowrap {m : Module} {i : Instr} {bs : List Branch}
    (hop : i.op = .conditional bs) (hwrap : bs.any branchNeedsWrap = false) :
    rewriteInstr m i = [{ i with operands := i.operands.map (remapOperand m) }] := by
  simp only [rewriteInstr, hop, hwrap, Bool.false_eq_true, if_false]

/-- Equation: get-tuple-element consumers are kept as they are. -/
theorem rewriteInstr_gte {m : Module} {i : Instr} {k : Nat}
    (hop : i.op = .getTupleElement k) : rewriteInstr m i = [i] := by
  simp only [rewriteInstr, hop]

/-- Equation: any other instruction only has its operands rerouted. -/
theorem rewriteInstr_other {m : Module} {i : Instr}
    (hop : i.op = .other) :
    rewriteInstr m i = [{ i with operands := i.operands.map (remapOperand m) }] := by
  simp only [rewriteInstr, hop]

/-- A true `condNonCanonical` exposes the conditional's branches. -/
theorem condNonCanonical_char {i : Instr} (h : condNonCanonical i = true) :
    ∃ bs, i.op = .conditional bs ∧ bs.any branchNeedsWrap = true := by
  unfold condNonCanonical at h
  cases hop : i.op with
  | conditional bs => rw [hop] at h; exact ⟨bs, rfl, h⟩
  | getTupleElement k => rw [hop] at h; cases h
  | other => rw [hop] at h; cases h

/-- A list whose elements are all mapped to their own singleton is fixed
by `flatMap`. -/
theorem flatMap_eq_self_of_mem {α : Type} {l : List α} {f : α → List α}
    (h : ∀ a ∈ l, f a = [a]) : l.flatMap f = l := by
  induction l with
  | nil => rfl
  | cons a rest ih =>
    show f a ++ rest.flatMap f = a :: rest
    rw [h a (List.mem_cons_self a rest),
      ih (fun b hb => h b (List.mem_cons_of_mem a hb))]
    rfl

/-- After the pass, every conditional's branches all have tuple roots. -/
theorem run_conditionals_canonical (m : Module) :
    ∀ i' ∈ (ConditionalCanonicalizer m).1, ∀ bs, i'.op = .conditional bs →
      ∀ b ∈ bs, b.rootIsTuple = true := by
  intro i' hmem bs hop b hb
  obtain ⟨i, him, hri⟩ := List.mem_flatMap.mp hmem
  cases hopi : i.op with
  | conditional bs0 =>
    by_cases hwrap : bs0.any branchNeedsWrap = true
    · rw [rewriteInstr_cond_wrap hopi hwrap] at hri
      rcases List.mem_cons.mp hri with rfl | hri2
      · simp only at hop
        have hbs : bs = bs0.map canonBranch := by
          have hop2 : COp.conditional (bs0.map canonBranch) = .conditional bs := hop
          injection hop2 with h2
          exact h2.symm
        rw [hbs] at hb
        obtain ⟨b0, _, rfl⟩ := List.mem_map.mp hb
        exact canonBranch_rootIsTuple b0
      · rcases List.mem_singleton.mp hri2 with rfl
        cases hop
    · have hwrapF : bs0.any branchNeedsWrap = false := Bool.eq_false_iff.mpr hwrap
      rw [rewriteInstr_cond_nowrap hopi hwrapF] at hri
      rcases List.mem_singleton.mp hri with rfl
      rw [hopi] at hop
      have hop2 : COp.conditional bs0 = .conditional bs := hop
      injection hop2 with h2
      rw [← h2] at hb
      rw [List.any_eq_false] at hwrapF
      have := hwrapF b hb
      simpa [branchNeedsWrap] using this
  | getTupleElement k =>
    rw [rewriteInstr_gte hopi] at hri
    rcases List.mem_singleton.mp hri with rfl
    rw [hopi] at hop
    cases hop
  | other =>
    rw [rewriteInstr_other hopi] at hri
    rcases List.mem_singleton.mp hri with rfl
    rw [hopi] at hop
    have hop2 : COp.other = .conditional bs := hop
    cases hop2

end CondCanon

namespace CondCanon

/-- C5: after the conditional canonicalizer runs, every conditional's
branches have tuple roots; every formerly non-canonical conditional is in
the result with its branches wrapped (each non-tuple branch getting the
single-element-tuple result shape), its own result shape updated to the
one-element tuple, and its get-tuple-element(0) inserted; and every former
direct (non get-tuple-element) consumer is rerouted to a
get-tuple-element(0) reading the conditional. -/
theorem c5_conditional_canonicalizer (m : Module) :
    (∀ i' ∈ (ConditionalCanonicalizer m).1, ∀ bs, i'.op = .conditional bs →
      ∀ b ∈ bs, b.rootIsTuple = true) ∧
    (∀ c ∈ m, ∀ bs, c.op = .conditional bs → bs.any branchNeedsWrap = true →
      ({ c with
          op := .conditional (bs.map canonBranch)
          shape := Shape.tuple [c.shape]
          operands := c.operands.map (remapOperand m) } ∈
            (ConditionalCanonicalizer m).1) ∧
      (∀ b ∈ bs, b.rootIsTuple = false →
        canonBranch b = { rootIsTuple := true, resultShape := .tuple [b.resultShape] }) ∧
      ({ id := Id.aux c.id 0, op := COp.getTupleElement 0, shape := c.shape,
         operands := [c.id] } ∈ (ConditionalCanonicalizer m).1)) ∧
    (∀ u ∈ m, (∀ k, u.op ≠ .getTupleElement k) →
      (∃ u' ∈ (ConditionalCanonicalizer m).1, u'.id = u.id ∧
        u'.operands = u.operands.map (remapOperand m)) ∧
      (∀ x ∈ u.operands, x ∈ nonCanonIds m →
        remapOperand m x = Id.aux x 0 ∧
        ∃ s, { id := Id.aux x 0, op := COp.getTupleElement 0, shape := s,
               operands := [x] } ∈ (ConditionalCanonicalizer m).1)) := by
  refine ⟨run_conditionals_canonical m, ?_, ?_⟩
  · intro c hc bs hop hwrap
    refine ⟨?_, ?_, ?_⟩
    · exact List.mem_flatMap.mpr ⟨c, hc, by
        rw [rewriteInstr_cond_wrap hop hwrap]
        exact List.mem_cons_self _ _⟩
    · intro b _ hb
      unfold canonBranch
      rw [if_neg (by simp [hb])]
    · exact List.mem_flatMap.mpr ⟨c, hc, by
        rw [rewriteInstr_cond_wrap hop hwrap]
        exact List.mem_cons_of_mem _ (List.mem_cons_self _ _)⟩
  · intro u hu hgte
    constructor
    · cases hopu : u.op with
      | conditional bs0 =>
        by_cases hwrap : bs0.any branchNeedsWrap = true
        · refine ⟨{ u with
              op := .conditional (bs0.map canonBranch)
              shape := Shape.tuple [u.shape]
              operands := u.operands.map (remapOperand m) },
            List.mem_flatMap.mpr ⟨u, hu, by
              rw [rewriteInstr_cond_wrap hopu hwrap]
              exact List.mem_cons_self _ _⟩, rfl, rfl⟩
        · refine ⟨{ u with operands := u.operands.map (remapOperand m) },
            List.mem_flatMap.mpr ⟨u, hu, by
              rw [rewriteInstr_cond_nowrap hopu (Bool.eq_false_iff.mpr hwrap)]
              exact List.mem_cons_self _ _⟩, rfl, rfl⟩
      | getTupleElement k => exact absurd hopu (hgte k)
      | other =>
        refine ⟨{ u with operands := u.operands.map (remapOperand m) },
          List.mem_flatMap.mpr ⟨u, hu, by
            rw [rewriteInstr_other hopu]
            exact List.mem_cons_self _ _⟩, rfl, rfl⟩
    · intro x _ hx
      refine ⟨by unfold remapOperand; rw [if_pos hx], ?_⟩
      obtain ⟨c0, hc0f, hc0id⟩ := List.mem_map.mp hx
      obtain ⟨hc0m, hc0nc⟩ := List.mem_filter.mp hc0f
      obtain ⟨bs0, hopc0, hwrap0⟩ := condNonCanonical_char hc0nc
      refine ⟨c0.shape, List.mem_flatMap.mpr ⟨c0, hc0m, ?_⟩⟩
      rw [rewriteInstr_cond_wrap hopc0 hwrap0, hc0id]
      exact List.mem_cons_of_mem _ (List.mem_cons_self _ _)

/-- C5 witness: a module with one two-branch conditional whose branches
return bare scalars, plus one direct consumer; after the pass the
canonicalized conditional, its wrapped branches, the inserted
get-tuple-element(0), and the rerouted consumer are all as claimed. -/
theorem c5_conditional_canonicalizer_witness :
    ({ id := Id.orig 0
       op := COp.conditional ([⟨false, .prim 5⟩, ⟨false, .prim 5⟩].map canonBranch)
       shape := Shape.tuple [.prim 5]
       operands := ([] : List Id).map
         (remapOperand
           [⟨Id.orig 0, .conditional [⟨false, .prim 5⟩, ⟨false, .prim 5⟩], .prim 5, []⟩,
            ⟨Id.orig 1, .other, .prim 5, [Id.orig 0]⟩]) } ∈
      (ConditionalCanonicalizer
        [⟨Id.orig 0, .conditional [⟨false, .prim 5⟩, ⟨false, .prim 5⟩], .prim 5, []⟩,
         ⟨Id.orig 1, .other, .prim 5, [Id.orig 0]⟩]).1) ∧
    ({ id := Id.aux (Id.orig 0) 0, op := COp.getTupleElement 0, shape := Shape.prim 5,
       operands := [Id.orig 0] } ∈
      (ConditionalCanonicalizer
        [⟨Id.orig 0, .conditional [⟨false, .prim 5⟩, ⟨false, .prim 5⟩], .prim 5, []⟩,
         ⟨Id.orig 1, .other, .prim 5, [Id.orig 0]⟩]).1) := by
  have h := c5_conditional_canonicalizer
    [⟨Id.orig 0, .conditional [⟨false, .prim 5⟩, ⟨false, .prim 5⟩], .prim 5, []⟩,
     ⟨Id.orig 1, .other, .prim 5, [Id.orig 0]⟩]
  have h2 := h.2.1 ⟨Id.orig 0, .conditional [⟨false, .prim 5⟩, ⟨false, .prim 5⟩], .prim 5, []⟩
    (List.mem_cons_self _ _) [⟨false, .prim 5⟩, ⟨false, .prim 5⟩] rfl rfl
  exact ⟨h2.1, h2.2.2⟩

/-- Idempotence of the conditional canonicalizer: a second run directly
after a first changes nothing and reports `changed = false`. -/
theorem condCanon_idempotent (m : Module) :
    ConditionalCanonicalizer (ConditionalCanonicalizer m).1 =
      ((ConditionalCanonicalizer m).1, false) := by
  have hcanon : ∀ i' ∈ (ConditionalCanonicalizer m).1, condNonCanonical i' = false := by
    intro i' h
    cases hop : i'.op with
    | conditional bs =>
      have hall := run_conditionals_canonical m i' h bs hop
      unfold condNonCanonical
      rw [hop]
      rw [List.any_eq_false]
      intro b hb
      simp [branchNeedsWrap, hall b hb]
    | getTupleElement k => unfold condNonCanonical; rw [hop]
    | other => unfold condNonCanonical; rw [hop]
  have hnon : nonCanonIds (ConditionalCanonicalizer m).1 = [] := by
    unfold nonCanonIds
    rw [List.filter_eq_nil_iff.mpr (by intro a ha; simp [hcanon a ha])]
    rfl
  have hremap : ∀ x, remapOperand (ConditionalCanonicalizer m).1 x = x := by
    intro x
    unfold remapOperand
    rw [hnon]
    simp
  have hfix : ∀ i' ∈ (ConditionalCanonicalizer m).1,
      rewriteInstr (ConditionalCanonicalizer m).1 i' = [i'] := by
    intro i' h
    have hmapid : i'.operands.map (remapOperand (ConditionalCanonicalizer m).1) =
        i'.operands :=
      FPSimp.map_eq_self_of_mem (fun a _ => hremap a)
    cases hop : i'.op with
    | conditional bs =>
      have hwrapF : bs.any branchNeedsWrap = false := by
        have hx := hcanon i' h
        unfold condNonCanonical at hx
        rw [hop] at hx
        exact hx
      rw [rewriteInstr_cond_nowrap hop hwrapF, hmapid]
    | getTupleElement k => rw [rewriteInstr_gte hop]
    | other => rw [rewriteInstr_other hop, hmapid]
  have h1 : (ConditionalCanonicalizer m).1.flatMap
      (rewriteInstr (ConditionalCanonicalizer m).1) = (ConditionalCanonicalizer m).1 :=
    flatMap_eq_self_of_mem hfix
  have h2 : (ConditionalCanonicalizer m).1.any condNonCanonical = false := by
    rw [List.any_eq_false]
    intro a ha
    simp [hcanon a ha]
  show ((ConditionalCanonicalizer m).1.flatMap (rewriteInstr (ConditionalCanonicalizer m).1),
      (ConditionalCanonicalizer m).1.any condNonCanonical) = ((ConditionalCanonicalizer m).1, false)
  rw [h1, h2]

end CondCanon

namespace WhileSimp

/-- A successful lookup returns a member of the module carrying the id. -/
theorem lookup_eq_some_mem_w {m : Module} {x : Nat} {i : Instr}
    (h : lookup m x = some i) : i ∈ m ∧ i.id = x := by
  induction m with
  | nil => simp [lookup] at h
  | cons a rest ih =>
    unfold lookup at h
    by_cases ha : a.id = x
    · rw [if_pos ha] at h
      cases h
      exact ⟨List.mem_cons_self _ _, ha⟩
    · rw [if_neg ha] at h
      obtain ⟨hm, hid⟩ := ih h
      exact ⟨List.mem_cons_of_mem _ hm, hid⟩

/-- With distinct ids, lookup of a member's id finds that member. -/
theorem lookup_of_nodup_mem_w {m : Module} (hnd : (m.map Instr.id).Nodup)
    {i : Instr} (hm : i ∈ m) : lookup m i.id = some i := by
  induction m with
  | nil => cases hm
  | cons a rest ih =>
    rcases List.mem_cons.mp hm with rfl | hr
    · unfold lookup
      rw [if_pos rfl]
    · unfold lookup
      by_cases ha : a.id = i.id
      · exfalso
        simp only [List.map_cons, List.nodup_cons] at hnd
        exact hnd.1 (ha ▸ List.mem_map.mpr ⟨i, hr, rfl⟩)
      · rw [if_neg ha]
        exact ih (by simp only [List.map_cons, List.nodup_cons] at hnd; exact hnd.2) hr

/-- Every member's id is bounded by `maxId`. -/
theorem id_le_maxId_w {m : Module} {i : Instr} (h : i ∈ m) : i.id ≤ maxId m := by
  induction m with
  | nil => cases h
  | cons a rest ih =>
    show i.id ≤ max a.id (maxId rest)
    rcases List.mem_cons.mp h with rfl | hr
    · exact Nat.le_max_left _ _
    · exact le_trans (ih hr) (Nat.le_max_right _ _)

/-- Membership in the deleted-while id list, characterized. -/
theorem mem_zeroTripIds_iff {m : Module} {x : Nat} :
    x ∈ zeroTripIds m ↔ ∃ i ∈ m, zeroTrip m i = true ∧ i.id = x := by
  unfold zeroTripIds
  constructor
  · intro h
    obtain ⟨i, hif, hid⟩ := List.mem_map.mp h
    obtain ⟨him, hz⟩ := List.mem_filter.mp hif
    exact ⟨i, him, hz, hid⟩
  · rintro ⟨i, him, hz, hid⟩
    exact List.mem_map.mpr ⟨i, List.mem_filter.mpr ⟨him, hz⟩, hid⟩

/-- A zero-trip instruction is a while. -/
theorem zeroTrip_shape {m : Module} {i : Instr} (h : zeroTrip m i = true) :
    ∃ c b init, i.op = .whileOp c b init := by
  unfold zeroTrip at h
  cases hop : i.op with
  | whileOp c b init => exact ⟨c, b, init, rfl⟩
  | constant v => rw [hop] at h; cases h
  | other os => rw [hop] at h; cases h

/-- An `initOf` result is the operand of a member instruction. -/
theorem initOf_operand_mem {m : Module} {x y : Nat}
    (h : initOf m x = some y) : ∃ i, i ∈ m ∧ y ∈ operandsOf i ∧ i.id = x := by
  unfold initOf at h
  cases hl : lookup m x with
  | none => rw [hl] at h; cases h
  | some i =>
    rw [hl, Option.some_bind] at h
    obtain ⟨him, hid⟩ := lookup_eq_some_mem_w hl
    cases hop : i.op with
    | whileOp c b init =>
      rw [hop] at h
      cases h
      exact ⟨i, him, by simp [operandsOf, hop], hid⟩
    | constant v => rw [hop] at h; cases h
    | other os => rw [hop] at h; cases h

/-- With def-before-use ids, an initial operand is smaller than its while. -/
theorem initOf_lt {m : Module} (hw : WellOrdered m) {x y : Nat}
    (h : initOf m x = some y) : y < x := by
  obtain ⟨i, him, hy, hid⟩ := initOf_operand_mem h
  have := hw i him y hy
  omega

/-- A deleted while's id always resolves through its initial operand. -/
theorem initOf_of_zeroTripId {m : Module} (hnd : (m.map Instr.id).Nodup)
    {x : Nat} (h : x ∈ zeroTripIds m) : ∃ y, initOf m x = some y := by
  obtain ⟨i, him, hz, hid⟩ := mem_zeroTripIds_iff.mp h
  obtain ⟨c, b, init, hop⟩ := zeroTrip_shape hz
  refine ⟨init, ?_⟩
  unfold initOf
  rw [← hid, lookup_of_nodup_mem_w hnd him, Option.some_bind, hop]

/-- Resolution stops at once on a surviving id. -/
theorem resolveInit_stop {m : Module} {x : Nat} (h : x ∉ zeroTripIds m) :
    ∀ f, resolveInit m f x = x := by
  intro f
  cases f with
  | zero => rfl
  | succ f =>
    unfold resolveInit
    rw [if_neg h]

/-- One resolution step through a deleted while. -/
theorem resolveInit_step {m : Module} {x y : Nat} (hx : x ∈ zeroTripIds m)
    (hy : initOf m x = some y) (f : Nat) :
    resolveInit m (f + 1) x = resolveInit m f y := by
  conv_lhs => rw [resolveInit]
  rw [if_pos hx, hy]

/-- Resolution results are surviving ids (never deleted whiles). -/
theorem resolveInit_stopOk {m : Module} (hw : WellOrdered m)
    (hnd : (m.map Instr.id).Nodup) :
    ∀ f x, x < f → resolveInit m f x ∉ zeroTripIds m := by
  intro f
  induction f with
  | zero => intro x hx; omega
  | succ f ih =>
    intro x hx
    by_cases hmem : x ∈ zeroTripIds m
    · obtain ⟨y, hy⟩ := initOf_of_zeroTripId hnd hmem
      rw [resolveInit_step hmem hy f]
      have hyx : y < x := initOf_lt hw hy
      exact ih y (by omega)
    · rw [resolveInit_stop hmem]
      exact hmem

/-- A resolution result is the start id or an operand of some member. -/
theorem resolveInit_lands {m : Module} :
    ∀ f x, resolveInit m f x = x ∨
      ∃ i ∈ m, resolveInit m f x ∈ operandsOf i := by
  intro f
  induction f with
  | zero => intro x; exact Or.inl rfl
  | succ f ih =>
    intro x
    by_cases hmem : x ∈ zeroTripIds m
    · cases hy : initOf m x with
      | none =>
        unfold resolveInit
        rw [if_pos hmem, hy]
        exact Or.inl rfl
      | some y =>
        rw [resolveInit_step hmem hy f]
        rcases ih y with heq | hex
        · rw [heq]
          obtain ⟨i, him, hmemop, _⟩ := initOf_operand_mem hy
          exact Or.inr ⟨i, him, hmemop⟩
        · exact Or.inr hex
    · rw [resolveInit_stop hmem]
      exact Or.inl rfl

/-- Rewiring never changes an instruction's id. -/
theorem remapInstr_id (m : Module) (i : Instr) : (remapInstr m i).id = i.id := rfl

/-- Rewiring preserves being a while. -/
theorem isWhile_remapInstr (m : Module) (i : Instr) :
    isWhile (remapInstr m i) = isWhile i := by
  unfold remapInstr isWhile
  cases hop : i.op <;> rfl

/-- Operands after rewiring are the resolved old operands. -/
theorem operandsOf_remapInstr (m : Module) (i : Instr) :
    operandsOf (remapInstr m i) =
      (operandsOf i).map (resolveInit m (maxId m + 1)) := by
  unfold remapInstr operandsOf
  cases hop : i.op <;> rfl

end WhileSimp

namespace WhileSimp

/-- Dropping the elements satisfying `q` strictly lowers a `countP p` that
`q` implies, as soon as one element satisfies `q`. -/
theorem countP_filter_lt {α : Type} {l : List α} {p q : α → Bool}
    (hpq : ∀ a ∈ l, q a = true → p a = true)
    (h : ∃ a ∈ l, q a = true) :
    (l.filter (fun a => !q a)).countP p < l.countP p := by
  induction l with
  | nil => obtain ⟨a, ha, _⟩ := h; cases ha
  | cons a rest ih =>
    by_cases hqa : q a = true
    · have hfilter : (a :: rest).filter (fun x => !q x) = rest.filter (fun x => !q x) := by
        simp [List.filter_cons, hqa]
      rw [hfilter]
      have h1 : (rest.filter (fun x => !q x)).countP p ≤ rest.countP p :=
        (List.filter_sublist rest).countP_le p
      have hpa : p a = true := hpq a (List.mem_cons_self _ _) hqa
      rw [List.countP_cons_of_pos _ _ hpa]
      omega
    · have hfilter : (a :: rest).filter (fun x => !q x) = a :: rest.filter (fun x => !q x) := by
        simp [List.filter_cons, hqa]
      rw [hfilter]
      have hex : ∃ b ∈ rest, q b = true := by
        obtain ⟨b, hb, hqb⟩ := h
        rcases List.mem_cons.mp hb with rfl | hbr
        · exact absurd hqb hqa
        · exact ⟨b, hbr, hqb⟩
      have ihr := ih (fun b hb hqb => hpq b (List.mem_cons_of_mem a hb) hqb) hex
      by_cases hpa : p a = true
      · rw [List.countP_cons_of_pos _ _ hpa, List.countP_cons_of_pos _ _ hpa]
        omega
      · rw [List.countP_cons_of_neg _ _ hpa, List.countP_cons_of_neg _ _ hpa]
        exact ihr

/-- Membership in the sweep's result, characterized. -/
theorem mem_sweep {m : Module} {i' : Instr} :
    i' ∈ (sweep m).1 ↔ ∃ i ∈ m, zeroTrip m i = false ∧ remapInstr m i = i' := by
  constructor
  · intro h
    obtain ⟨i, hif, heq⟩ := List.mem_map.mp h
    obtain ⟨him, hkeep⟩ := List.mem_filter.mp hif
    refine ⟨i, him, ?_, heq⟩
    simpa using hkeep
  · rintro ⟨i, him, hz, rfl⟩
    exact List.mem_map.mpr ⟨i, List.mem_filter.mpr ⟨him, by simp [hz]⟩, rfl⟩

/-- A productive sweep strictly lowers the number of while instructions. -/
theorem sweep_decreases {m : Module} (h : (sweep m).2 = true) :
    whileCount (sweep m).1 < whileCount m := by
  show ((m.filter (fun i => !zeroTrip m i)).map (remapInstr m)).countP isWhile <
    m.countP isWhile
  rw [List.countP_map]
  have heq : (m.filter (fun i => !zeroTrip m i)).countP
        (fun i => isWhile (remapInstr m i)) =
      (m.filter (fun i => !zeroTrip m i)).countP isWhile := by
    induction (m.filter (fun i => !zeroTrip m i)) with
    | nil => rfl
    | cons a rest ih =>
      rw [List.countP_cons, List.countP_cons, isWhile_remapInstr, ih]
  rw [show (List.countP (isWhile ∘ remapInstr m) (m.filter fun i => !zeroTrip m i)) =
      (m.filter (fun i => !zeroTrip m i)).countP (fun i => isWhile (remapInstr m i))
    from rfl]
  rw [heq]
  apply countP_filter_lt
  · intro a _ hq
    obtain ⟨c, b, init, hop⟩ := zeroTrip_shape hq
    unfold isWhile
    rw [hop]
  · exact List.any_eq_true.mp h

/-- Without deleted whiles, resolution is the identity. -/
theorem resolveInit_id_of_no_zero {m : Module} (hz : zeroTripIds m = []) :
    ∀ f x, resolveInit m f x = x := by
  intro f x
  apply resolveInit_stop
  rw [hz]
  simp

/-- Without deleted whiles, rewiring is the identity. -/
theorem remapInstr_id_of_no_zero {m : Module} (hz : zeroTripIds m = [])
    (i : Instr) : remapInstr m i = i := by
  unfold remapInstr
  cases i with
  | mk iid iop =>
    cases iop with
    | constant v => rfl
    | whileOp c b init => simp [resolveInit_id_of_no_zero hz]
    | other os =>
      simp only [resolveInit_id_of_no_zero hz]
      rw [FPSimp.map_eq_self_of_mem (fun a _ => resolveInit_id_of_no_zero hz _ a)]

/-- An unproductive sweep leaves the module untouched. -/
theorem sweep_nochange {m : Module} (h : (sweep m).2 = false) :
    (sweep m).1 = m := by
  have hall : ∀ i ∈ m, zeroTrip m i = false := by
    have h2 := List.any_eq_false.mp h
    intro i hi
    have := h2 i hi
    simpa using this
  have hzids : zeroTripIds m = [] := by
    unfold zeroTripIds
    rw [List.filter_eq_nil_iff.mpr (by intro a ha; simp [hall a ha])]
    rfl
  show (m.filter (fun i => !zeroTrip m i)).map (remapInstr m) = m
  rw [List.filter_eq_self.mpr (by intro a ha; simp [hall a ha])]
  exact FPSimp.map_eq_self_of_mem (fun a _ => remapInstr_id_of_no_zero hzids a)

/-- Unfolding of a productive fixpoint step. -/
theorem runAux_succ_pos {m : Module} {f : Nat} (h : (sweep m).2 = true) :
    runAux (f + 1) m = ((runAux f (sweep m).1).1, true) := by
  conv_lhs => rw [runAux]
  rw [if_pos h]

/-- Unfolding of an unproductive fixpoint step. -/
theorem runAux_succ_neg {m : Module} {f : Nat} (h : (sweep m).2 = false) :
    runAux (f + 1) m = (m, false) := by
  conv_lhs => rw [runAux]
  rw [if_neg (by simp [h])]

/-- With enough fuel the fixpoint loop really reaches a fixpoint: the
sweep has nothing left to do on the result. -/
theorem runAux_fix : ∀ (f : Nat) (m : Module), whileCount m < f →
    (sweep ((runAux f m).1)).2 = false := by
  intro f
  induction f with
  | zero => intro m hm; omega
  | succ f ih =>
    intro m hm
    by_cases hs : (sweep m).2 = true
    · have hdec := sweep_decreases hs
      rw [runAux_succ_pos hs]
      exact ih (sweep m).1 (by omega)
    · have hs' : (sweep m).2 = false := Bool.eq_false_iff.mpr hs
      rw [runAux_succ_neg hs']
      exact hs'

/-- A sweep cannot reintroduce an id that no member carries or references. -/
theorem sweep_preserves_noref {m : Module} {w : Nat}
    (hids : ∀ i ∈ m, i.id ≠ w) (hops : ∀ i ∈ m, w ∉ operandsOf i) :
    (∀ i' ∈ (sweep m).1, i'.id ≠ w) ∧ (∀ i' ∈ (sweep m).1, w ∉ operandsOf i') := by
  constructor
  · intro i' h
    obtain ⟨i, him, _, rfl⟩ := mem_sweep.mp h
    rw [remapInstr_id]
    exact hids i him
  · intro i' h
    obtain ⟨i, him, _, rfl⟩ := mem_sweep.mp h
    rw [operandsOf_remapInstr]
    intro hmem
    obtain ⟨x, hx, hres⟩ := List.mem_map.mp hmem
    rcases resolveInit_lands (m := m) (maxId m + 1) x with heq | ⟨j, hj, hmemop⟩
    · rw [heq] at hres
      rw [hres] at hx
      exact hops i him hx
    · rw [hres] at hmemop
      exact hops j hj hmemop

/-- The fixpoint loop cannot reintroduce an id that no member carries or
references. -/
theorem runAux_preserves_noref {w : Nat} : ∀ (f : Nat) (m : Module),
    (∀ i ∈ m, i.id ≠ w) → (∀ i ∈ m, w ∉ operandsOf i) →
    (∀ i' ∈ (runAux f m).1, i'.id ≠ w) ∧
      (∀ i' ∈ (runAux f m).1, w ∉ operandsOf i') := by
  intro f
  induction f with
  | zero => intro m h1 h2; exact ⟨h1, h2⟩
  | succ f ih =>
    intro m h1 h2
    by_cases hs : (sweep m).2 = true
    · rw [runAux_succ_pos hs]
      obtain ⟨g1, g2⟩ := sweep_preserves_noref h1 h2
      exact ih (sweep m).1 g1 g2
    · rw [runAux_succ_neg (Bool.eq_false_iff.mpr hs)]
      exact ⟨h1, h2⟩

/-- The deleting sweep removes every trace of a zero-trip while. -/
theorem first_sweep_clears {m : Module} (hw : WellOrdered m)
    (hnd : (m.map Instr.id).Nodup) {w : Instr} (hwm : w ∈ m)
    (hz : zeroTrip m w = true) :
    (∀ i' ∈ (sweep m).1, i'.id ≠ w.id) ∧
      (∀ i' ∈ (sweep m).1, w.id ∉ operandsOf i') := by
  constructor
  · intro i' h
    obtain ⟨i, him, hzf, rfl⟩ := mem_sweep.mp h
    rw [remapInstr_id]
    intro heq
    have hiw : i = w := List.inj_on_of_nodup_map hnd him hwm heq
    rw [hiw, hz] at hzf
    cases hzf
  · intro i' h
    obtain ⟨i, him, _, rfl⟩ := mem_sweep.mp h
    rw [operandsOf_remapInstr]
    intro hmem
    obtain ⟨x, hx, hres⟩ := List.mem_map.mp hmem
    have hxF : x < maxId m + 1 := by
      have h1 := hw i him x hx
      have h2 := id_le_maxId_w him
      omega
    have hstop := resolveInit_stopOk hw hnd (maxId m + 1) x hxF
    rw [hres] at hstop
    exact hstop (mem_zeroTripIds_iff.mpr ⟨w, hwm, hz, rfl⟩)

end WhileSimp

namespace WhileSimp

/-- C2: for a while instruction whose condition computation statically
folds to false on the first iteration (trip count provably zero), the
while-loop simplifier reports a change, deletes the while instruction (no
instruction of the result carries its id), leaves no use of its result
(no instruction of the result references its id), and its deleting sweep
rewires every surviving instruction's operands through init-resolution —
which maps the while's id to its initial operand whenever the initial
operand is not itself a deleted while. -/
theorem c2_zero_trip_while_elimination (m : Module) (hw : WellOrdered m)
    (hnd : (m.map Instr.id).Nodup) (w : Instr) (hwm : w ∈ m)
    (c : CondExpr) (b init : Nat) (hop : w.op = .whileOp c b init)
    (hz : zeroTrip m w = true) :
    ((WhileLoopSimplifier m).2 = true) ∧
    (∀ i' ∈ (WhileLoopSimplifier m).1, i'.id ≠ w.id) ∧
    (∀ i' ∈ (WhileLoopSimplifier m).1, w.id ∉ operandsOf i') ∧
    (∀ u ∈ m, zeroTrip m u = false →
      remapInstr m u ∈ (sweep m).1 ∧
      operandsOf (remapInstr m u) =
        (operandsOf u).map (resolveInit m (maxId m + 1))) ∧
    (init ∉ zeroTripIds m → resolveInit m (maxId m + 1) w.id = init) := by
  have hs : (sweep m).2 = true := List.any_eq_true.mpr ⟨w, hwm, hz⟩
  have hrun : WhileLoopSimplifier m = ((runAux (whileCount m) (sweep m).1).1, true) := by
    unfold WhileLoopSimplifier
    exact runAux_succ_pos hs
  obtain ⟨hc1, hc2⟩ := first_sweep_clears hw hnd hwm hz
  obtain ⟨hp1, hp2⟩ := runAux_preserves_noref (whileCount m) (sweep m).1 hc1 hc2
  refine ⟨by rw [hrun], ?_, ?_, ?_, ?_⟩
  · rw [hrun]
    exact hp1
  · rw [hrun]
    exact hp2
  · intro u hu hzu
    exact ⟨mem_sweep.mpr ⟨u, hu, hzu, rfl⟩, operandsOf_remapInstr m u⟩
  · intro hinit
    have hwz : w.id ∈ zeroTripIds m := mem_zeroTripIds_iff.mpr ⟨w, hwm, hz, rfl⟩
    have hio : initOf m w.id = some init := by
      unfold initOf
      rw [lookup_of_nodup_mem_w hnd hwm, Option.some_bind, hop]
    rw [resolveInit_step hwz hio (maxId m), resolveInit_stop hinit]

/-- C2 witness: the module `[constant [0] (id 0), while (state0 < 0) with
init id 0 (id 1), consumer of the while (id 2)]`: the condition folds to
false at the initial value, the pass reports a change, the surviving
consumer no longer carries id 1, and the while's id resolves to its
initial operand id 0. -/
theorem c2_zero_trip_while_elimination_witness :
    ((WhileLoopSimplifier
        [⟨0, .constant [0]⟩, ⟨1, .whileOp (.ltParamConst 0 0) 7 0⟩,
         ⟨2, .other [1]⟩]).2 = true) ∧
    ((⟨2, WOp.other [0]⟩ : Instr).id ≠ (⟨1, WOp.whileOp (.ltParamConst 0 0) 7 0⟩ : Instr).id) ∧
    (resolveInit
        [⟨0, .constant [0]⟩, ⟨1, .whileOp (.ltParamConst 0 0) 7 0⟩, ⟨2, .other [1]⟩]
        (maxId [⟨0, .constant [0]⟩, ⟨1, .whileOp (.ltParamConst 0 0) 7 0⟩,
          ⟨2, .other [1]⟩] + 1)
        (⟨1, WOp.whileOp (.ltParamConst 0 0) 7 0⟩ : Instr).id = 0) := by
  have h := c2_zero_trip_while_elimination
    [⟨0, .constant [0]⟩, ⟨1, .whileOp (.ltParamConst 0 0) 7 0⟩, ⟨2, .other [1]⟩]
    (by unfold WellOrdered; decide) (by decide)
    ⟨1, .whileOp (.ltParamConst 0 0) 7 0⟩ (by decide)
    (.ltParamConst 0 0) 7 0 rfl (by decide)
  refine ⟨h.1, ?_, h.2.2.2.2 (by decide)⟩
  exact h.2.1 ⟨2, WOp.other [0]⟩ (by decide)

/-- Idempotence of the while-loop simplifier: a second run directly after
a first changes nothing and reports `changed = false`. -/
theorem whileSimp_idempotent (m : Module) :
    WhileLoopSimplifier ((WhileLoopSimplifier m).1) =
      ((WhileLoopSimplifier m).1, false) := by
  have hfix : (sweep ((WhileLoopSimplifier m).1)).2 = false :=
    runAux_fix (whileCount m + 1) m (by omega)
  show runAux (whileCount (WhileLoopSimplifier m).1 + 1) (WhileLoopSimplifier m).1 =
    ((WhileLoopSimplifier m).1, false)
  exact runAux_succ_neg hfix

end WhileSimp

namespace StableSort

/-- The expander's matching predicate holds exactly on stable sorts. -/
theorem matches_iff (i : Instr) :
    InstructionMatchesPattern i = true ↔ ∃ k, i.op = .sortOp true k := by
  unfold InstructionMatchesPattern
  cases hop : i.op with
  | sortOp s k =>
    cases s
    · simp
    · simp
  | iotaOp => simp
  | getTupleElement j => simp
  | tupleOp => simp
  | other => simp

/-- Expansion equation on a matching sort. -/
theorem expandInstr_match {m : Module} {i : Instr} {k : Nat}
    (hop : i.op = .sortOp true k) :
    expandInstr m i =
      { id := Id.aux i.id 0, op := .iotaOp, shape := [idxType],
        operands := ([] : List Id) } ::
        expandedSort m i k :: (expandedGtes i k ++ [expandedWrapper i k]) := by
  simp only [expandInstr, hop]

/-- Expansion equation on a non-matching instruction. -/
theorem expandInstr_nomatch {m : Module} {i : Instr}
    (hop : InstructionMatchesPattern i = false) :
    expandInstr m i = [{ i with operands := i.operands.map (remapOperand m) }] := by
  unfold InstructionMatchesPattern at hop
  cases hopc : i.op with
  | sortOp s k =>
    rw [hopc] at hop
    cases s
    · simp only [expandInstr, hopc]
    · cases hop
  | iotaOp => simp only [expandInstr, hopc]
  | getTupleElement j => simp only [expandInstr, hopc]
  | tupleOp => simp only [expandInstr, hopc]
  | other => simp only [expandInstr, hopc]

/-- The inserted replacement pieces of a matching sort are in the result. -/
theorem expanded_mem {m : Module} {c : Instr} {k : Nat} (hc : c ∈ m)
    (hop : c.op = .sortOp true k) :
    expandedSort m c k ∈ (StableSortExpander m).1 ∧
      expandedWrapper c k ∈ (StableSortExpander m).1 := by
  constructor
  · refine List.mem_flatMap.mpr ⟨c, hc, ?_⟩
    rw [expandInstr_match hop]
    exact List.mem_cons_of_mem _ (List.mem_cons_self _ _)
  · refine List.mem_flatMap.mpr ⟨c, hc, ?_⟩
    rw [expandInstr_match hop]
    refine List.mem_cons_of_mem _ (List.mem_cons_of_mem _ ?_)
    exact List.mem_append_right _ (List.mem_singleton.mpr rfl)

/-- The augmented rows come out sorted by the extended comparator. -/
theorem sortedAug_sorted {β : Type} (l : List (Nat × β)) :
    List.Sorted leAug (sortedAug l) :=
  List.sorted_insertionSort leAug l.enum.reverse

/-- The augmented sorted rows are a permutation of the indexed input. -/
theorem sortedAug_perm {β : Type} (l : List (Nat × β)) :
    (sortedAug l).Perm l.enum :=
  (List.perm_insertionSort leAug l.enum.reverse).trans l.enum.reverse_perm

/-- The synthetic index column of the sorted rows has no duplicates. -/
theorem sortedAug_idx_nodup {β : Type} (l : List (Nat × β)) :
    ((sortedAug l).map Prod.fst).Nodup := by
  have hperm : ((sortedAug l).map Prod.fst).Perm ((l.enum).map Prod.fst) :=
    (sortedAug_perm l).map Prod.fst
  rw [hperm.nodup_iff, List.enum_map_fst]
  exact List.nodup_range _

/-- Every sorted augmented row is the original row at its index. -/
theorem sortedAug_mem_get {β : Type} (l : List (Nat × β)) :
    ∀ x ∈ sortedAug l, l[x.1]? = some x.2 := by
  intro x hx
  have hx2 : x ∈ l.enum := (sortedAug_perm l).mem_iff.mp hx
  exact List.mem_enum_iff_getElem?.mp hx2

/-- Stability: rows with equal keys come out in ascending original-index
order, i.e. in their original relative order. -/
theorem sortedAug_stable {β : Type} (l : List (Nat × β))
    (p q : Fin (sortedAug l).length) (hpq : p < q)
    (hkey : ((sortedAug l).get p).2.1 = ((sortedAug l).get q).2.1) :
    ((sortedAug l).get p).1 < ((sortedAug l).get q).1 := by
  have hs : List.Sorted leAug (sortedAug l) := sortedAug_sorted l
  have hrel := hs.rel_get_of_lt hpq
  unfold leAug at hrel
  rcases hrel with hlt | ⟨heq, hle⟩
  · rw [hkey] at hlt
    exact absurd hlt (lt_irrefl _)
  · have hnd : ((sortedAug l).map Prod.fst).Nodup := sortedAug_idx_nodup l
    have hlen : ((sortedAug l).map Prod.fst).length = (sortedAug l).length :=
      List.length_map _ _
    have hp' : (p : Nat) < ((sortedAug l).map Prod.fst).length := by
      rw [hlen]; exact p.2
    have hq' : (q : Nat) < ((sortedAug l).map Prod.fst).length := by
      rw [hlen]; exact q.2
    have hgp : ((sortedAug l).map Prod.fst).get ⟨p, hp'⟩ =
        ((sortedAug l).get p).1 := by
      simp [List.get_eq_getElem, List.getElem_map]
    have hgq : ((sortedAug l).map Prod.fst).get ⟨q, hq'⟩ =
        ((sortedAug l).get q).1 := by
      simp [List.get_eq_getElem, List.getElem_map]
    have hne : ((sortedAug l).get p).1 ≠ ((sortedAug l).get q).1 := by
      intro habs
      have hfe : (⟨p, hp'⟩ : Fin _) = ⟨q, hq'⟩ :=
        (List.Nodup.get_inj_iff hnd).mp (by rw [hgp, hgq, habs])
      have hv : (p : Nat) = (q : Nat) := by simpa using hfe
      have : (p : Nat) < q := hpq
      omega
    exact lt_of_le_of_ne hle hne

/-- The public output is a permutation of the input rows (same elements,
same length: the public shape of the result is the input's). -/
theorem stableSortViaExpansion_perm {β : Type} (l : List (Nat × β)) :
    (stableSortViaExpansion l).Perm l := by
  unfold stableSortViaExpansion
  have h1 : ((sortedAug l).map Prod.snd).Perm ((l.enum).map Prod.snd) :=
    (sortedAug_perm l).map Prod.snd
  rw [List.enum_map_snd] at h1
  exact h1

end StableSort

namespace StableSort

/-- A successful lookup returns a member of the module. -/
theorem lookup_eq_some_mem_s {m : Module} {x : Id} {i : Instr}
    (h : lookup m x = some i) : i ∈ m ∧ i.id = x := by
  induction m with
  | nil => simp [lookup] at h
  | cons a rest ih =>
    unfold lookup at h
    by_cases ha : a.id = x
    · rw [if_pos ha] at h
      cases h
      exact ⟨List.mem_cons_self _ _, ha⟩
    · rw [if_neg ha] at h
      obtain ⟨hm, hid⟩ := ih h
      exact ⟨List.mem_cons_of_mem _ hm, hid⟩

/-- C3: the stable-sort expander matches exactly the sorts with the
`is_stable` attribute set; the replacement wrapper it produces has a
public result shape identical to the original sort's shape while the new
underlying sort is unstable with the one extra synthetic operand; and the
value-level expansion preserves the original relative input order among
rows with equal keys even though the underlying sort primitive scrambles
equal keys. -/
theorem c3_stable_sort_expander {β : Type} (m : Module) (c : Instr) (k : Nat)
    (hc : c ∈ m) (hop : c.op = .sortOp true k) (l : List (Nat × β)) :
    (∀ i : Instr, InstructionMatchesPattern i = true ↔
      ∃ k0, i.op = .sortOp true k0) ∧
    (expandedWrapper c k ∈ (StableSortExpander m).1 ∧
      (expandedWrapper c k).shape = c.shape ∧
      expandedSort m c k ∈ (StableSortExpander m).1 ∧
      (expandedSort m c k).op = .sortOp false (k + 1) ∧
      (StableSortExpander m).2 = true) ∧
    ((∀ p q : Fin (sortedAug l).length, p < q →
        ((sortedAug l).get p).2.1 = ((sortedAug l).get q).2.1 →
        ((sortedAug l).get p).1 < ((sortedAug l).get q).1) ∧
      (∀ x ∈ sortedAug l, l[x.1]? = some x.2) ∧
      (stableSortViaExpansion l).Perm l ∧
      stableSortViaExpansion l = (sortedAug l).map Prod.snd) := by
  obtain ⟨hsmem, hwmem⟩ := expanded_mem hc hop
  refine ⟨matches_iff, ⟨hwmem, rfl, hsmem, rfl, ?_⟩,
    sortedAug_stable l, sortedAug_mem_get l, stableSortViaExpansion_perm l, rfl⟩
  exact List.any_eq_true.mpr ⟨c, hc, (matches_iff c).mpr ⟨k, hop⟩⟩

/-- C3 witness: the theorem applied to a module holding one two-column
stable sort, and to the spec's example rows `[(5, x), (3, y), (5, z)]`;
the expansion yields `[(3, y), (5, x), (5, z)]`, with the two key-5 rows
kept in their original relative order. -/
theorem c3_stable_sort_expander_witness :
    (expandedWrapper ⟨Id.orig 0, .sortOp true 2, [7, 8], [Id.orig 5, Id.orig 6]⟩ 2 ∈
      (StableSortExpander
        [⟨Id.orig 0, .sortOp true 2, [7, 8], [Id.orig 5, Id.orig 6]⟩]).1) ∧
    ((expandedWrapper ⟨Id.orig 0, .sortOp true 2, [7, 8], [Id.orig 5, Id.orig 6]⟩ 2).shape =
      (⟨Id.orig 0, .sortOp true 2, [7, 8], [Id.orig 5, Id.orig 6]⟩ : Instr).shape) ∧
    (((sortedAug [(5, "x"), (3, "y"), (5, "z")]).get ⟨1, by decide⟩).1 <
      ((sortedAug [(5, "x"), (3, "y"), (5, "z")]).get ⟨2, by decide⟩).1) ∧
    stableSortViaExpansion [(5, "x"), (3, "y"), (5, "z")] =
      [(3, "y"), (5, "x"), (5, "z")] := by
  have h := c3_stable_sort_expander
    [⟨Id.orig 0, .sortOp true 2, [7, 8], [Id.orig 5, Id.orig 6]⟩]
    ⟨Id.orig 0, .sortOp true 2, [7, 8], [Id.orig 5, Id.orig 6]⟩ 2
    (List.mem_cons_self _ _) rfl [(5, "x"), (3, "y"), (5, "z")]
  refine ⟨h.2.1.1, h.2.1.2.1, ?_, by decide⟩
  exact h.2.2.1 ⟨1, by decide⟩ ⟨2, by decide⟩ (by decide) (by decide)

/-- After one run of the expander, nothing matches any more. -/
theorem stableSort_no_match_after {m : Module} :
    ∀ i' ∈ (StableSortExpander m).1, InstructionMatchesPattern i' = false := by
  intro i' h
  obtain ⟨i, him, hri⟩ := List.mem_flatMap.mp h
  by_cases hmat : InstructionMatchesPattern i = true
  · obtain ⟨k, hop⟩ := (matches_iff i).mp hmat
    rw [expandInstr_match hop] at hri
    rcases List.mem_cons.mp hri with rfl | hri2
    · rfl
    · rcases List.mem_cons.mp hri2 with rfl | hri3
      · rfl
      · rcases List.mem_append.mp hri3 with hgte | hwrap
        · obtain ⟨j, _, rfl⟩ := List.mem_map.mp hgte
          rfl
        · rcases List.mem_singleton.mp hwrap with rfl
          rfl
  · rw [expandInstr_nomatch (Bool.eq_false_iff.mpr hmat)] at hri
    rcases List.mem_singleton.mp hri with rfl
    exact Bool.eq_false_iff.mpr hmat

/-- Without matches, no id refers to a stable sort. -/
theorem stableSort_arity_none {m' : Module}
    (h : ∀ i' ∈ m', InstructionMatchesPattern i' = false) :
    ∀ x, matchingSortArity m' x = none := by
  intro x
  unfold matchingSortArity
  cases hl : lookup m' x with
  | none => rfl
  | some j =>
    rw [Option.some_bind]
    have hj : j ∈ m' := (lookup_eq_some_mem_s hl).1
    have hm := h j hj
    cases hopj : j.op with
    | sortOp s kk =>
      cases s
      · rfl
      · exfalso
        have : InstructionMatchesPattern j = true := by
          unfold InstructionMatchesPattern
          rw [hopj]
        rw [hm] at this
        cases this
    | iotaOp => rfl
    | getTupleElement j2 => rfl
    | tupleOp => rfl
    | other => rfl

/-- Idempotence of the stable-sort expander: a second run directly after
a first changes nothing and reports `changed = false`. -/
theorem stableSort_idempotent (m : Module) :
    StableSortExpander (StableSortExpander m).1 =
      ((StableSortExpander m).1, false) := by
  have hno := stableSort_no_match_after (m := m)
  have harity := stableSort_arity_none hno
  have hremap : ∀ x, remapOperand (StableSortExpander m).1 x = x := by
    intro x
    unfold remapOperand
    rw [harity x]
  have hfix : ∀ i' ∈ (StableSortExpander m).1,
      expandInstr (StableSortExpander m).1 i' = [i'] := by
    intro i' h
    rw [expandInstr_nomatch (hno i' h)]
    rw [FPSimp.map_eq_self_of_mem (fun a _ => hremap a)]
  have h1 := CondCanon.flatMap_eq_self_of_mem hfix
  have h2 : (StableSortExpander m).1.any InstructionMatchesPattern = false := by
    rw [List.any_eq_false]
    intro a ha
    simp [hno a ha]
  show ((StableSortExpander m).1.flatMap (expandInstr (StableSortExpander m).1),
    (StableSortExpander m).1.any InstructionMatchesPattern) =
      ((StableSortExpander m).1, false)
  rw [h1, h2]

end StableSort

namespace SortSimp

/-- A successful lookup returns a member of the module carrying the id. -/
theorem lookup_eq_some_mem_t {m : Module} {x : Nat} {i : Instr}
    (h : lookup m x = some i) : i ∈ m ∧ i.id = x := by
  induction m with
  | nil => simp [lookup] at h
  | cons a rest ih =>
    unfold lookup at h
    by_cases ha : a.id = x
    · rw [if_pos ha] at h
      cases h
      exact ⟨List.mem_cons_self _ _, ha⟩
    · rw [if_neg ha] at h
      obtain ⟨hm, hid⟩ := ih h
      exact ⟨List.mem_cons_of_mem _ hm, hid⟩

/-- With distinct ids, lookup of a member's id finds that member. -/
theorem lookup_of_nodup_mem_t {m : Module} (hnd : (m.map Instr.id).Nodup)
    {i : Instr} (hm : i ∈ m) : lookup m i.id = some i := by
  induction m with
  | nil => cases hm
  | cons a rest ih =>
    rcases List.mem_cons.mp hm with rfl | hr
    · unfold lookup
      rw [if_pos rfl]
    · unfold lookup
      by_cases ha : a.id = i.id
      · exfalso
        simp only [List.map_cons, List.nodup_cons] at hnd
        exact hnd.1 (ha ▸ List.mem_map.mpr ⟨i, hr, rfl⟩)
      · rw [if_neg ha]
        exact ih (by simp only [List.map_cons, List.nodup_cons] at hnd; exact hnd.2) hr

/-- Pointwise-equal predicates give equal `any`. -/
theorem any_congr {α : Type} {L : List α} {p q : α → Bool}
    (h : ∀ a ∈ L, p a = q a) : L.any p = L.any q := by
  induction L with
  | nil => rfl
  | cons a rest ih =>
    simp only [List.any_cons, h a (List.mem_cons_self _ _),
      ih (fun b hb => h b (List.mem_cons_of_mem a hb))]

/-- Pointwise-equal predicates give equal `all`. -/
theorem all_congr {α : Type} {L : List α} {p q : α → Bool}
    (h : ∀ a ∈ L, p a = q a) : L.all p = L.all q := by
  induction L with
  | nil => rfl
  | cons a rest ih =>
    simp only [List.all_cons, h a (List.mem_cons_self _ _),
      ih (fun b hb => h b (List.mem_cons_of_mem a hb))]

/-- In a strictly ascending list, the number of elements below the `r`-th
element is exactly `r`. -/
theorem countP_lt_get_of_pairwise :
    ∀ {L : List Nat}, L.Pairwise (· < ·) →
      ∀ (r : Nat) (h : r < L.length),
        L.countP (fun u => decide (u < L.get ⟨r, h⟩)) = r := by
  intro L
  induction L with
  | nil => intro _ r h; simp at h
  | cons a rest ih =>
    intro hp r h
    have hpa : ∀ b ∈ rest, a < b := fun b hb => List.rel_of_pairwise_cons hp hb
    cases r with
    | zero =>
      rw [List.countP_cons_of_neg _ _ (by simp)]
      rw [List.countP_eq_zero]
      intro b hb
      have := hpa b hb
      simp only [List.get] at *
      simp
      omega
    | succ r =>
      have hr : r < rest.length := by simpa using h
      have hget : (a :: rest).get ⟨r + 1, h⟩ = rest.get ⟨r, hr⟩ := rfl
      rw [hget]
      have hmem : rest.get ⟨r, hr⟩ ∈ rest := rest.get_mem r hr
      rw [List.countP_cons_of_pos _ _ (by simp; exact hpa _ hmem)]
      rw [ih (List.Pairwise.of_cons hp) r hr]

/-- The used positions are strictly ascending. -/
theorem usedPositions_pairwise (m : Module) (x k : Nat) :
    (usedPositions m x k).Pairwise (· < ·) :=
  (List.pairwise_lt_range k).sublist (List.filter_sublist _)

/-- Membership in the used positions, characterized. -/
theorem mem_usedPositions {m : Module} {x k j : Nat} :
    j ∈ usedPositions m x k ↔ j < k ∧ positionUsed m x j = true := by
  unfold usedPositions
  rw [List.mem_filter, List.mem_range]

/-- The reading predicate holds exactly on the matching get-tuple-element. -/
theorem readsPosition_char {x j : Nat} {i : Instr} :
    readsPosition x j i = true ↔ i.op = .gte j x := by
  unfold readsPosition
  cases hop : i.op with
  | gte j' o => simp [beq_iff_eq, hop, And.comm]
  | sortOp d => simp [hop]
  | other os => simp [hop]

/-- Rewriting preserves the instruction id. -/
theorem rewriteInstr_keeps_id (m : Module) (i : Instr) :
    (rewriteInstr m i).id = i.id := by
  cases hop : i.op with
  | sortOp d =>
    by_cases hf : fires m i = true
    · simp [rewriteInstr, hop, hf]
    · simp [rewriteInstr, hop, hf]
  | gte j o =>
    cases hfs : firedSortUsed m o with
    | some used => simp [rewriteInstr, hop, hfs]
    | none => simp [rewriteInstr, hop, hfs]
  | other os => simp [rewriteInstr, hop]

/-- A get-tuple-element never fires. -/
theorem fires_gte {m : Module} {i : Instr} {j o : Nat}
    (hop : i.op = .gte j o) : fires m i = false := by
  simp [fires, hop]

/-- A non-sort, non-get-tuple-element instruction never fires. -/
theorem fires_other {m : Module} {i : Instr} {os : List Nat}
    (hop : i.op = .other os) : fires m i = false := by
  simp [fires, hop]

/-- A sort all of whose rebuilt positions are used does not fire: the
strict-decrease conjunct of the firing condition fails. -/
theorem fires_of_sort_all_used {m : Module} {i : Instr} {d : SortData}
    (hop : i.op = .sortOp d)
    (hall : (usedPositions m i.id d.numOperands).length = d.numOperands) :
    fires m i = false := by
  simp [fires, hop, hall]

/-- When no sort with the operand id fires, the reading predicate is
untouched by the rewrite. -/
theorem readsPosition_rewrite_of_none {m : Module} {o : Nat}
    (hnone : firedSortUsed m o = none) (j : Nat) (i : Instr) :
    readsPosition o j (rewriteInstr m i) = readsPosition o j i := by
  cases hop : i.op with
  | sortOp d =>
    by_cases hf : fires m i = true
    · simp [rewriteInstr, hop, hf, readsPosition]
    · simp [rewriteInstr, hop, hf]
  | gte j' o' =>
    cases hfs : firedSortUsed m o' with
    | some used =>
      have hne : o' ≠ o := by
        intro he
        rw [he, hnone] at hfs
        cases hfs
      have ho : (o' == o) = false := by simp [hne]
      simp [rewriteInstr, hop, hfs, readsPosition, ho]
    | none => simp [rewriteInstr, hop, hfs]
  | other os => simp [rewriteInstr, hop]

/-- When no sort with the operand id fires, the positions it has used are
untouched by the rewrite. -/
theorem positionUsed_map_of_none {m : Module} {o : Nat}
    (hnone : firedSortUsed m o = none) (j : Nat) :
    positionUsed (m.map (rewriteInstr m)) o j = positionUsed m o j := by
  unfold positionUsed
  rw [List.any_map]
  exact any_congr (fun i _ => readsPosition_rewrite_of_none hnone j i)

/-- When no sort with the operand id fires, the used-position list is
untouched by the rewrite. -/
theorem usedPositions_map_of_none {m : Module} {o : Nat}
    (hnone : firedSortUsed m o = none) (k : Nat) :
    usedPositions (m.map (rewriteInstr m)) o k = usedPositions m o k := by
  unfold usedPositions
  exact List.filter_congr (fun j _ => positionUsed_map_of_none hnone j)

/-- When no sort with the instruction's id fires, the firing condition is
untouched by the rewrite. -/
theorem fires_map_of_none {m : Module} {i : Instr}
    (hnone : firedSortUsed m i.id = none) :
    fires (m.map (rewriteInstr m)) i = fires m i := by
  cases hop : i.op with
  | sortOp d =>
    simp only [fires, hop]
    rw [usedPositions_map_of_none hnone]
    congr 1
    exact all_congr (fun j _ => by rw [positionUsed_map_of_none hnone])
  | gte j o => simp [fires, hop]
  | other os => simp [fires, hop]

/-- A member sort that does not fire rules out the fired-sort lookup of
its id. -/
theorem firedSortUsed_none_of_nofire {m : Module}
    (hnd : (m.map Instr.id).Nodup) {s : Instr}
    (hs : s ∈ m) (hf : fires m s = false) :
    firedSortUsed m s.id = none := by
  unfold firedSortUsed
  rw [lookup_of_nodup_mem_t hnd hs]
  cases hop : s.op with
  | sortOp d => simp [hop, hf]
  | gte j o' => simp [hop]
  | other os => simp [hop]

/-- If nothing in the module fires, no fired-sort lookup succeeds. -/
theorem firedSortUsed_none_of_all_nofire {m : Module}
    (hnf : ∀ s ∈ m, fires m s = false) (o : Nat) :
    firedSortUsed m o = none := by
  unfold firedSortUsed
  cases hl : lookup m o with
  | none => rfl
  | some s =>
    obtain ⟨hm, _⟩ := lookup_eq_some_mem_t hl
    have hf := hnf s hm
    cases hop : s.op with
    | sortOp d => simp [hop, hf]
    | gte j o' => simp [hop]
    | other os => simp [hop]

/-- A member sort that fires resolves the fired-sort lookup of its id to
its used positions. -/
theorem firedSortUsed_some_of_fire {m : Module}
    (hnd : (m.map Instr.id).Nodup) {s : Instr} {d : SortData}
    (hs : s ∈ m) (hop : s.op = .sortOp d) (hf : fires m s = true) :
    firedSortUsed m s.id = some (usedPositions m s.id d.numOperands) := by
  unfold firedSortUsed
  rw [lookup_of_nodup_mem_t hnd hs]
  simp [hop, hf]

/-- After the rewrite, every new position of a fired sort is read: the
renumbered get-tuple-element of the kept position with that rank reads it. -/
theorem fired_positions_all_used {m : Module}
    (hnd : (m.map Instr.id).Nodup) {s : Instr} {d : SortData}
    (hs : s ∈ m) (hop : s.op = .sortOp d) (hf : fires m s = true)
    {j : Nat} (hj : j < (usedPositions m s.id d.numOperands).length) :
    positionUsed (m.map (rewriteInstr m)) s.id j = true := by
  have hget : (usedPositions m s.id d.numOperands).get ⟨j, hj⟩ ∈
      usedPositions m s.id d.numOperands :=
    (usedPositions m s.id d.numOperands).get_mem j hj
  obtain ⟨hlt, hpu⟩ := mem_usedPositions.mp hget
  unfold positionUsed at hpu
  rw [List.any_eq_true] at hpu
  obtain ⟨r, hrm, hrp⟩ := hpu
  rw [readsPosition_char] at hrp
  have hfsu := firedSortUsed_some_of_fire hnd hs hop hf
  have hrw : rewriteInstr m r =
      { r with op := .gte (rankIn (usedPositions m s.id d.numOperands)
          ((usedPositions m s.id d.numOperands).get ⟨j, hj⟩)) s.id } := by
    simp [rewriteInstr, hrp, hfsu]
  have hrank : rankIn (usedPositions m s.id d.numOperands)
      ((usedPositions m s.id d.numOperands).get ⟨j, hj⟩) = j := by
    unfold rankIn
    exact countP_lt_get_of_pairwise (usedPositions_pairwise m s.id d.numOperands) j hj
  unfold positionUsed
  rw [List.any_eq_true]
  refine ⟨rewriteInstr m r, List.mem_map.mpr ⟨r, hrm, rfl⟩, ?_⟩
  rw [readsPosition_char, hrw]
  show TOp.gte (rankIn (usedPositions m s.id d.numOperands)
      ((usedPositions m s.id d.numOperands).get ⟨j, hj⟩)) s.id = TOp.gte j s.id
  rw [hrank]

/-- The rewritten form of a fired sort no longer fires: all of its new
positions are used. -/
theorem fires_rewritten_fired_sort {m : Module}
    (hnd : (m.map Instr.id).Nodup) {s : Instr} {d : SortData}
    (hs : s ∈ m) (hop : s.op = .sortOp d) (hf : fires m s = true) :
    fires (m.map (rewriteInstr m)) (rewriteInstr m s) = false := by
  have hopr : (rewriteInstr m s).op = .sortOp (rebuiltData m s.id d) := by
    simp [rewriteInstr, hop, hf]
  apply fires_of_sort_all_used hopr
  rw [rewriteInstr_keeps_id]
  have husp : usedPositions (m.map (rewriteInstr m)) s.id
      (rebuiltData m s.id d).numOperands =
      List.range (rebuiltData m s.id d).numOperands := by
    unfold usedPositions
    rw [List.filter_eq_self]
    intro j hj
    exact fired_positions_all_used hnd hs hop hf (List.mem_range.mp hj)
  rw [husp, List.length_range]

/-- After one run nothing fires any more. -/
theorem no_fires_after {m : Module} (hnd : (m.map Instr.id).Nodup) :
    ∀ i ∈ m.map (rewriteInstr m), fires (m.map (rewriteInstr m)) i = false := by
  intro i hi
  obtain ⟨u, hu, rfl⟩ := List.mem_map.mp hi
  cases hop : u.op with
  | sortOp d =>
    by_cases hf : fires m u = true
    · exact fires_rewritten_fired_sort hnd hu hop hf
    · have hfe : fires m u = false := by
        cases hb : fires m u
        · rfl
        · exact absurd hb hf
      have hnone := firedSortUsed_none_of_nofire hnd hu hfe
      have hun : rewriteInstr m u = u := by
        simp [rewriteInstr, hop, hfe]
      rw [hun, fires_map_of_none hnone, hfe]
  | gte j o =>
    cases hfs : firedSortUsed m o with
    | some used =>
      have hr : rewriteInstr m u = { u with op := .gte (rankIn used j) o } := by
        simp [rewriteInstr, hop, hfs]
      rw [hr]
      exact fires_gte rfl
    | none =>
      have hr : rewriteInstr m u = u := by
        simp [rewriteInstr, hop, hfs]
      rw [hr]
      exact fires_gte hop
  | other os =>
    have hr : rewriteInstr m u = u := by
      simp [rewriteInstr, hop]
    rw [hr]
    exact fires_other hop

/-- When nothing in the module fires, the rewrite is the identity on its
members. -/
theorem rewriteInstr_of_all_nofire {m : Module}
    (hnf : ∀ s ∈ m, fires m s = false) {i : Instr} (hi : i ∈ m) :
    rewriteInstr m i = i := by
  cases hop : i.op with
  | sortOp d => simp [rewriteInstr, hop, hnf i hi]
  | gte j o => simp [rewriteInstr, hop, firedSortUsed_none_of_all_nofire hnf o]
  | other os => simp [rewriteInstr, hop]

/-- For a module with distinct ids, the sort simplifier is idempotent:
the second run changes nothing and reports changed = false. -/
theorem sortSimp_idempotent {m : Module} (hnd : (m.map Instr.id).Nodup) :
    SortSimplifier (SortSimplifier m).1 = ((SortSimplifier m).1, false) := by
  have hnf := no_fires_after hnd
  show ((m.map (rewriteInstr m)).map (rewriteInstr (m.map (rewriteInstr m))),
        (m.map (rewriteInstr m)).any (fires (m.map (rewriteInstr m)))) =
       (m.map (rewriteInstr m), false)
  rw [FPSimp.map_eq_self_of_mem (fun i hi => rewriteInstr_of_all_nofire hnf hi)]
  rw [List.any_eq_false.mpr (fun i hi => by simp [hnf i hi])]

end SortSimp


namespace WhileFull

/-- A successful lookup returns a member of the module carrying the id. -/
theorem lookup_eq_some_mem_f {m : Module} {x : Nat} {i : Instr}
    (h : lookup m x = some i) : i ∈ m ∧ i.id = x := by
  induction m with
  | nil => simp [lookup] at h
  | cons a rest ih =>
    unfold lookup at h
    by_cases ha : a.id = x
    · rw [if_pos ha] at h
      cases h
      exact ⟨List.mem_cons_self _ _, ha⟩
    · rw [if_neg ha] at h
      obtain ⟨hm, hid⟩ := ih h
      exact ⟨List.mem_cons_of_mem _ hm, hid⟩

/-- A value term has at least one node. -/
theorem valSize_pos : ∀ (v : Val), 1 ≤ valSize v
  | .intv _ => Nat.le_refl 1
  | .unknownv => Nat.le_refl 1
  | .tuplev es => Nat.le_add_right 1 (valSizeList es)

/-- Node count distributes over list append. -/
theorem valSizeList_append : ∀ (a b : List Val),
    valSizeList (a ++ b) = valSizeList a + valSizeList b := by
  intro a b
  induction a with
  | nil => simp [valSizeList]
  | cons v vs ih =>
    show valSize v + valSizeList (vs ++ b) = valSize v + valSizeList vs + valSizeList b
    rw [ih]
    omega

mutual

/-- Flattening a value term to its leaves never grows its node count. -/
theorem leaves_size_le : (v : Val) → valSizeList (leaves v) ≤ valSize v
  | .intv n => by simp [leaves, valSizeList, valSize]
  | .unknownv => by simp [leaves, valSizeList, valSize]
  | .tuplev es => by
    have h := leavesList_size_le es
    simp only [leaves, valSize]
    omega

/-- Flattening a list of value terms never grows its node count. -/
theorem leavesList_size_le : (es : List Val) →
    valSizeList (leavesList es) ≤ valSizeList es
  | [] => by simp [leavesList]
  | v :: vs => by
    have h1 := leaves_size_le v
    have h2 := leavesList_size_le vs
    simp only [leavesList, valSizeList, valSizeList_append]
    omega

end

/-- Flattening a tuple value strictly shrinks its node count. -/
theorem leaves_size_lt_of_tuple {v : Val} (hv : isTuple v = true) :
    valSizeList (leaves v) < valSize v := by
  cases v with
  | intv n => simp [isTuple] at hv
  | unknownv => simp [isTuple] at hv
  | tuplev es =>
    have h := leavesList_size_le es
    simp only [leaves, valSize]
    omega

/-- Flattening a list with a tuple member strictly shrinks its node
count. -/
theorem leavesList_size_lt {es : List Val} (h : es.any isTuple = true) :
    valSizeList (leavesList es) < valSizeList es := by
  induction es with
  | nil => simp at h
  | cons v vs ih =>
    simp only [List.any_cons, Bool.or_eq_true] at h
    simp only [leavesList, valSizeList, valSizeList_append]
    rcases h with hv | hvs
    · have h1 := leaves_size_lt_of_tuple hv
      have h2 := leavesList_size_le vs
      omega
    · have h1 := leaves_size_le v
      have h2 := ih hvs
      omega

/-- Pruning never grows the node count of the state elements. -/
theorem pruneList_size_le (used : Nat → Bool) :
    ∀ (off : Nat) (es : List Val),
      valSizeList (pruneList used off es) ≤ valSizeList es := by
  intro off es
  induction es generalizing off with
  | nil => simp [pruneList]
  | cons v vs ih =>
    by_cases hu : used off = true
    · simp only [pruneList, hu, if_true, valSizeList]
      exact Nat.add_le_add_left (ih (off + 1)) _
    · have hu2 : used off = false := by
        cases hb : used off
        · rfl
        · exact absurd hb hu
      simp only [pruneList, hu2, Bool.false_eq_true, if_false]
      have h1 := ih (off + 1)
      have h2 : valSizeList vs ≤ valSize v + valSizeList vs := Nat.le_add_left _ _
      calc valSizeList (pruneList used (off + 1) vs) ≤ valSizeList vs := h1
        _ ≤ valSizeList (v :: vs) := h2

/-- Pruning a state with an unused element strictly shrinks its node
count. -/
theorem pruneList_size_lt (used : Nat → Bool) :
    ∀ (off : Nat) (es : List Val),
      (∃ j, j < es.length ∧ used (off + j) = false) →
      valSizeList (pruneList used off es) < valSizeList es := by
  intro off es
  induction es generalizing off with
  | nil =>
    rintro ⟨j, hj, _⟩
    simp at hj
  | cons v vs ih =>
    rintro ⟨j, hj, hu⟩
    by_cases hh : used off = true
    · have hj0 : j ≠ 0 := by
        intro h0
        rw [h0, Nat.add_zero] at hu
        rw [hu] at hh
        cases hh
      have hex : ∃ t, t < vs.length ∧ used (off + 1 + t) = false := by
        refine ⟨j - 1, ?_, ?_⟩
        · simp only [List.length_cons] at hj
          omega
        · have harr : off + 1 + (j - 1) = off + j := by omega
          rw [harr]
          exact hu
      have hstep := ih (off + 1) hex
      simp only [pruneList, hh, if_true, valSizeList]
      omega
    · have hh2 : used off = false := by
        cases hb : used off
        · rfl
        · exact absurd hb hh
      have hle := pruneList_size_le used (off + 1) vs
      have hv := valSize_pos v
      simp only [pruneList, hh2, Bool.false_eq_true, if_false, valSizeList]
      omega

/-- A filter that shortens a list misses some member. -/
theorem length_filter_lt_exists {α : Type} {p : α → Bool} {l : List α}
    (h : (l.filter p).length < l.length) : ∃ x ∈ l, p x = false := by
  by_contra hc
  push_neg at hc
  rw [List.filter_eq_self.mpr (fun a ha => by
    cases hb : p a
    · exact absurd hb (hc a ha)
    · rfl)] at h
  omega

/-- Pointwise bounded maps have bounded sums. -/
theorem sum_map_le {α : Type} {l : List α} {f g : α → Nat}
    (h : ∀ a ∈ l, f a ≤ g a) : (l.map f).sum ≤ (l.map g).sum := by
  induction l with
  | nil => simp
  | cons a rest ih =>
    simp only [List.map_cons, List.sum_cons]
    have h1 := h a (List.mem_cons_self a rest)
    have h2 := ih (fun b hb => h b (List.mem_cons_of_mem a hb))
    omega

/-- A pointwise bounded map that strictly shrinks at one member strictly
shrinks the sum. -/
theorem sum_map_lt {α : Type} {l : List α} {f g : α → Nat}
    (h : ∀ a ∈ l, f a ≤ g a) {w : α} (hw : w ∈ l) (hlt : f w < g w) :
    (l.map f).sum < (l.map g).sum := by
  induction l with
  | nil => cases hw
  | cons a rest ih =>
    simp only [List.map_cons, List.sum_cons]
    rcases List.mem_cons.mp hw with rfl | hr
    · have h2 := sum_map_le (fun b hb => h b (List.mem_cons_of_mem w hb))
      omega
    · have h1 := h a (List.mem_cons_self a rest)
      have h2 := ih (fun b hb => h b (List.mem_cons_of_mem a hb)) hr
      omega

/-- An unchanged instruction has decision keep. -/
theorem whileChanges_false {m : Module} {i : Instr}
    (h : whileChanges m i = false) : decideWhile m i = .keep := by
  cases hd : decideWhile m i with
  | keep => rfl
  | elim v => simp [whileChanges, hd] at h
  | prune => simp [whileChanges, hd] at h
  | flatten => simp [whileChanges, hd] at h

/-- A changed instruction does not have decision keep. -/
theorem whileChanges_true {m : Module} {i : Instr}
    (h : whileChanges m i = true) : decideWhile m i ≠ .keep := by
  intro hk
  simp [whileChanges, hk] at h

/-- Only a while is eliminated. -/
theorem decideWhile_elim_shape {m : Module} {i : Instr} {v : Val}
    (hd : decideWhile m i = .elim v) :
    ∃ c b v0, i.op = .whileOp c b v0 := by
  cases hop : i.op with
  | whileOp c b v0 => exact ⟨c, b, v0, rfl⟩
  | valOp w => simp [decideWhile, hop] at hd
  | gte j o => simp [decideWhile, hop] at hd
  | reconstruct js o => simp [decideWhile, hop] at hd
  | other os => simp [decideWhile, hop] at hd

/-- A pruned instruction is a while over a tuple state with an unused
element. -/
theorem decideWhile_prune_shape {m : Module} {i : Instr}
    (hd : decideWhile m i = .prune) :
    ∃ c b es, i.op = .whileOp c b (.tuplev es) ∧
      (keptElems m i.id c b es.length).length < es.length := by
  cases hop : i.op with
  | whileOp c b v0 =>
    simp only [decideWhile, hop] at hd
    cases ht : decideTrip c b v0 with
    | some v => rw [ht] at hd; simp at hd
    | none =>
      rw [ht] at hd
      cases v0 with
      | intv n => simp [checkStructural] at hd
      | unknownv => simp [checkStructural] at hd
      | tuplev es =>
        simp only [checkStructural] at hd
        by_cases hlt : (keptElems m i.id c b es.length).length < es.length
        · exact ⟨c, b, es, rfl, hlt⟩
        · rw [if_neg hlt] at hd
          by_cases hany : es.any isTuple = true
          · rw [if_pos hany] at hd
            cases hd
          · rw [if_neg hany] at hd
            cases hd
  | valOp w => simp [decideWhile, hop] at hd
  | gte j o => simp [decideWhile, hop] at hd
  | reconstruct js o => simp [decideWhile, hop] at hd
  | other os => simp [decideWhile, hop] at hd

/-- A flattened instruction is a while over a nested tuple state. -/
theorem decideWhile_flatten_shape {m : Module} {i : Instr}
    (hd : decideWhile m i = .flatten) :
    ∃ c b es, i.op = .whileOp c b (.tuplev es) ∧ es.any isTuple = true := by
  cases hop : i.op with
  | whileOp c b v0 =>
    simp only [decideWhile, hop] at hd
    cases ht : decideTrip c b v0 with
    | some v => rw [ht] at hd; simp at hd
    | none =>
      rw [ht] at hd
      cases v0 with
      | intv n => simp [checkStructural] at hd
      | unknownv => simp [checkStructural] at hd
      | tuplev es =>
        simp only [checkStructural] at hd
        by_cases hlt : (keptElems m i.id c b es.length).length < es.length
        · rw [if_pos hlt] at hd
          cases hd
        · rw [if_neg hlt] at hd
          by_cases hany : es.any isTuple = true
          · exact ⟨c, b, es, rfl, hany⟩
          · rw [if_neg hany] at hd
            cases hd
  | valOp w => simp [decideWhile, hop] at hd
  | gte j o => simp [decideWhile, hop] at hd
  | reconstruct js o => simp [decideWhile, hop] at hd
  | other os => simp [decideWhile, hop] at hd

/-- Equation: under decision keep the rewrite is the user renumbering. -/
theorem rewriteOne_keep {m : Module} {i : Instr}
    (hd : decideWhile m i = .keep) : rewriteOne m i = userRewrite m i := by
  simp [rewriteOne, hd]

/-- User renumbering preserves the termination measure. -/
theorem instrMeasure_userRewrite (m : Module) (i : Instr) :
    instrMeasure (userRewrite m i) = instrMeasure i := by
  cases hop : i.op with
  | gte j o =>
    cases him : idxMapOf m o with
    | ranks used => simp [userRewrite, hop, him, instrMeasure]
    | flat es =>
      cases hg : es[j]? with
      | none => simp [userRewrite, hop, him, hg, instrMeasure]
      | some v =>
        cases v with
        | intv n => simp [userRewrite, hop, him, hg, instrMeasure]
        | unknownv => simp [userRewrite, hop, him, hg, instrMeasure]
        | tuplev es2 => simp [userRewrite, hop, him, hg, instrMeasure]
    | keep => simp [userRewrite, hop, him]
  | reconstruct js o =>
    cases him : idxMapOf m o with
    | ranks used => simp [userRewrite, hop, him, instrMeasure]
    | flat es => simp [userRewrite, hop, him]
    | keep => simp [userRewrite, hop, him]
  | valOp v => simp [userRewrite, hop]
  | whileOp c b v => simp [userRewrite, hop]
  | other os => simp [userRewrite, hop]

/-- The rewrite never grows the termination measure. -/
theorem instrMeasure_rewriteOne_le (m : Module) (i : Instr) :
    instrMeasure (rewriteOne m i) ≤ instrMeasure i := by
  cases hd : decideWhile m i with
  | keep =>
    rw [rewriteOne_keep hd, instrMeasure_userRewrite]
  | elim v =>
    obtain ⟨c, b, v0, hop⟩ := decideWhile_elim_shape hd
    simp [rewriteOne, hd, instrMeasure, hop]
  | prune =>
    obtain ⟨c, b, es, hop, hlt⟩ := decideWhile_prune_shape hd
    have hr : rewriteOne m i = { i with op := prunedOp m i.id c b es } := by
      simp [rewriteOne, hd, hop]
    have hle := pruneList_size_le (elemUsed m i.id c b) 0 es
    rw [hr]
    have e1 : instrMeasure { i with op := prunedOp m i.id c b es } =
        1 + (1 + valSizeList (pruneList (elemUsed m i.id c b) 0 es)) := rfl
    have e2 : instrMeasure i = 1 + (1 + valSizeList es) := by
      simp [instrMeasure, hop, valSize]
    rw [e1, e2]
    omega
  | flatten =>
    obtain ⟨c, b, es, hop, hany⟩ := decideWhile_flatten_shape hd
    have hr : rewriteOne m i = { i with op := flattenedOp c b es } := by
      simp [rewriteOne, hd, hop]
    have hle := leavesList_size_le es
    rw [hr]
    have e1 : instrMeasure { i with op := flattenedOp c b es } =
        1 + (1 + valSizeList (leavesList es)) := rfl
    have e2 : instrMeasure i = 1 + (1 + valSizeList es) := by
      simp [instrMeasure, hop, valSize]
    rw [e1, e2]
    omega

/-- The rewrite of a changing while strictly shrinks the termination
measure. -/
theorem instrMeasure_rewriteOne_lt {m : Module} {i : Instr}
    (h : whileChanges m i = true) :
    instrMeasure (rewriteOne m i) < instrMeasure i := by
  cases hd : decideWhile m i with
  | keep => exact absurd hd (whileChanges_true h)
  | elim v =>
    obtain ⟨c, b, v0, hop⟩ := decideWhile_elim_shape hd
    have hv := valSize_pos v0
    have hr : rewriteOne m i = { i with op := .valOp v } := by
      simp [rewriteOne, hd]
    rw [hr]
    have e1 : instrMeasure { i with op := .valOp v } = 0 := rfl
    have e2 : instrMeasure i = 1 + valSize v0 := by
      simp [instrMeasure, hop]
    rw [e1, e2]
    omega
  | prune =>
    obtain ⟨c, b, es, hop, hlt⟩ := decideWhile_prune_shape hd
    have hlt2 : ((List.range es.length).filter (elemUsed m i.id c b)).length <
        (List.range es.length).length := by
      rw [List.length_range]
      exact hlt
    obtain ⟨x, hx, hpx⟩ := length_filter_lt_exists hlt2
    have hstrict := pruneList_size_lt (elemUsed m i.id c b) 0 es
      ⟨x, List.mem_range.mp hx, by rwa [Nat.zero_add]⟩
    have hr : rewriteOne m i = { i with op := prunedOp m i.id c b es } := by
      simp [rewriteOne, hd, hop]
    rw [hr]
    have e1 : instrMeasure { i with op := prunedOp m i.id c b es } =
        1 + (1 + valSizeList (pruneList (elemUsed m i.id c b) 0 es)) := rfl
    have e2 : instrMeasure i = 1 + (1 + valSizeList es) := by
      simp [instrMeasure, hop, valSize]
    rw [e1, e2]
    omega
  | flatten =>
    obtain ⟨c, b, es, hop, hany⟩ := decideWhile_flatten_shape hd
    have hstrict := leavesList_size_lt hany
    have hr : rewriteOne m i = { i with op := flattenedOp c b es } := by
      simp [rewriteOne, hd, hop]
    rw [hr]
    have e1 : instrMeasure { i with op := flattenedOp c b es } =
        1 + (1 + valSizeList (leavesList es)) := rfl
    have e2 : instrMeasure i = 1 + (1 + valSizeList es) := by
      simp [instrMeasure, hop, valSize]
    rw [e1, e2]
    omega

/-- A changing sweep strictly shrinks the termination measure. -/
theorem sweep_decreases_f {m : Module} (h : (sweep m).2 = true) :
    moduleMeasure (sweep m).1 < moduleMeasure m := by
  obtain ⟨w, hwm, hwc⟩ := List.any_eq_true.mp h
  show moduleMeasure (m.map (rewriteOne m)) < moduleMeasure m
  unfold moduleMeasure
  rw [List.map_map]
  exact sum_map_lt (fun a _ => instrMeasure_rewriteOne_le m a) hwm
    (instrMeasure_rewriteOne_lt hwc)

/-- When every instruction keeps, no user renumbers. -/
theorem idxMapOf_keep {m : Module}
    (hk : ∀ s ∈ m, decideWhile m s = .keep) (o : Nat) :
    idxMapOf m o = .keep := by
  unfold idxMapOf
  cases hl : lookup m o with
  | none => rfl
  | some s =>
    obtain ⟨hm, _⟩ := lookup_eq_some_mem_f hl
    have hks := hk s hm
    cases hop : s.op with
    | whileOp c b v => simp [hop, hks]
    | valOp v => simp [hop]
    | gte j o2 => simp [hop]
    | reconstruct js o2 => simp [hop]
    | other os => simp [hop]

/-- When every instruction keeps, user renumbering is the identity. -/
theorem userRewrite_id_of_keep {m : Module}
    (hk : ∀ s ∈ m, decideWhile m s = .keep) (i : Instr) :
    userRewrite m i = i := by
  have hidx := idxMapOf_keep hk
  cases hop : i.op with
  | gte j o => simp [userRewrite, hop, hidx o]
  | reconstruct js o => simp [userRewrite, hop, hidx o]
  | valOp v => simp [userRewrite, hop]
  | whileOp c b v => simp [userRewrite, hop]
  | other os => simp [userRewrite, hop]

/-- An unproductive sweep is the identity on the module. -/
theorem sweep_nochange_f {m : Module} (h : (sweep m).2 = false) :
    (sweep m).1 = m := by
  have hall : ∀ i ∈ m, decideWhile m i = .keep := by
    have h2 := List.any_eq_false.mp h
    intro i hi
    exact whileChanges_false (by simpa using h2 i hi)
  show m.map (rewriteOne m) = m
  apply FPSimp.map_eq_self_of_mem
  intro i hi
  rw [rewriteOne_keep (hall i hi)]
  exact userRewrite_id_of_keep hall i

/-- Unfolding of a productive fixpoint step. -/
theorem runAux_succ_pos_f {m : Module} {f : Nat} (h : (sweep m).2 = true) :
    runAux (f + 1) m = ((runAux f (sweep m).1).1, true) := by
  conv_lhs => rw [runAux]
  rw [if_pos h]

/-- Unfolding of an unproductive fixpoint step. -/
theorem runAux_succ_neg_f {m : Module} {f : Nat} (h : (sweep m).2 = false) :
    runAux (f + 1) m = (m, false) := by
  conv_lhs => rw [runAux]
  rw [if_neg (by simp [h])]

/-- With enough fuel the fixpoint loop really reaches a fixpoint: the
sweep has nothing left to do on the result. -/
theorem runAux_fix_f : ∀ (f : Nat) (m : Module), moduleMeasure m < f →
    (sweep ((runAux f m).1)).2 = false := by
  intro f
  induction f with
  | zero =>
    intro m hm
    omega
  | succ f ih =>
    intro m hm
    by_cases hs : (sweep m).2 = true
    · have hdec := sweep_decreases_f hs
      rw [runAux_succ_pos_f hs]
      exact ih (sweep m).1 (by omega)
    · have hs2 : (sweep m).2 = false := Bool.eq_false_iff.mpr hs
      rw [runAux_succ_neg_f hs2]
      exact hs2

/-- Idempotence of the complete while-loop simplifier: a second run
directly after a first changes nothing and reports `changed = false`. -/
theorem whileFull_idempotent (m : Module) :
    WhileLoopSimplifier ((WhileLoopSimplifier m).1) =
      ((WhileLoopSimplifier m).1, false) := by
  have hfix : (sweep ((WhileLoopSimplifier m).1)).2 = false :=
    runAux_fix_f (moduleMeasure m + 1) m (by omega)
  show runAux (moduleMeasure (WhileLoopSimplifier m).1 + 1) (WhileLoopSimplifier m).1 =
    ((WhileLoopSimplifier m).1, false)
  exact runAux_succ_neg_f hfix

end WhileFull


/-! ## Claim theorem for pass idempotence -/

/-- C6: each of the five modelled passes is idempotent: running the pass a
second time immediately after a first run, with no intervening change from
any other pass, reports changed = false and leaves the module identical to
the state after the first run. The while-loop simplifier is the complete
four-rewrite model (zero-trip elimination, single-trip inlining, unused
tuple-element pruning, nested-tuple flattening, each re-checked until none
applies). For the floating-point conversion simplifier the module is
assumed def-before-use well-ordered; for the sort simplifier the
instruction ids are assumed distinct. -/
theorem c6_passes_idempotent
    (g : FPSimp.Graph) (c : CondCanon.Module) (w : WhileFull.Module)
    (s : StableSort.Module) (t : SortSimp.Module)
    (hw : FPSimp.WellOrdered g)
    (hnd : (t.map SortSimp.Instr.id).Nodup) :
    FPSimp.SimplifyFPConversions (FPSimp.SimplifyFPConversions g).1 =
      ((FPSimp.SimplifyFPConversions g).1, false) ∧
    CondCanon.ConditionalCanonicalizer (CondCanon.ConditionalCanonicalizer c).1 =
      ((CondCanon.ConditionalCanonicalizer c).1, false) ∧
    WhileFull.WhileLoopSimplifier (WhileFull.WhileLoopSimplifier w).1 =
      ((WhileFull.WhileLoopSimplifier w).1, false) ∧
    StableSort.StableSortExpander (StableSort.StableSortExpander s).1 =
      ((StableSort.StableSortExpander s).1, false) ∧
    SortSimp.SortSimplifier (SortSimp.SortSimplifier t).1 =
      ((SortSimp.SortSimplifier t).1, false) :=
  ⟨FPSimp.simplifyFP_idempotent hw, CondCanon.condCanon_idempotent c,
   WhileFull.whileFull_idempotent w, StableSort.stableSort_idempotent s,
   SortSimp.sortSimp_idempotent hnd⟩

/-- Witness for C6: at a two-instruction convert graph, a while module
with a nested-tuple loop and a get-tuple-element user, and a
two-instruction sort module (and empty modules for the remaining passes)
the hypotheses hold and the five second runs change nothing. -/
theorem c6_passes_idempotent_witness :
    FPSimp.WellOrdered
      [⟨1, 10, FPSimp.Op.otherOp []⟩, ⟨2, 11, FPSimp.Op.convertOp 1⟩] ∧
    (([⟨1, SortSimp.TOp.sortOp ⟨2, [true, true]⟩⟩,
       ⟨2, SortSimp.TOp.gte 0 1⟩] : SortSimp.Module).map SortSimp.Instr.id).Nodup ∧
    (FPSimp.SimplifyFPConversions (FPSimp.SimplifyFPConversions
        [⟨1, 10, FPSimp.Op.otherOp []⟩, ⟨2, 11, FPSimp.Op.convertOp 1⟩]).1 =
      ((FPSimp.SimplifyFPConversions
        [⟨1, 10, FPSimp.Op.otherOp []⟩, ⟨2, 11, FPSimp.Op.convertOp 1⟩]).1, false) ∧
     CondCanon.ConditionalCanonicalizer (CondCanon.ConditionalCanonicalizer []).1 =
      ((CondCanon.ConditionalCanonicalizer []).1, false) ∧
     WhileFull.WhileLoopSimplifier (WhileFull.WhileLoopSimplifier
        [⟨0, WhileFull.WOp.whileOp (.ltParamConst 0 5) ⟨[true], none⟩
            (.tuplev [.intv 0, .tuplev [.intv 1, .unknownv]])⟩,
         ⟨1, WhileFull.WOp.gte 0 0⟩]).1 =
      ((WhileFull.WhileLoopSimplifier
        [⟨0, WhileFull.WOp.whileOp (.ltParamConst 0 5) ⟨[true], none⟩
            (.tuplev [.intv 0, .tuplev [.intv 1, .unknownv]])⟩,
         ⟨1, WhileFull.WOp.gte 0 0⟩]).1, false) ∧
     StableSort.StableSortExpander (StableSort.StableSortExpander []).1 =
      ((StableSort.StableSortExpander []).1, false) ∧
     SortSimp.SortSimplifier (SortSimp.SortSimplifier
        [⟨1, SortSimp.TOp.sortOp ⟨2, [true, true]⟩⟩,
         ⟨2, SortSimp.TOp.gte 0 1⟩]).1 =
      ((SortSimp.SortSimplifier
        [⟨1, SortSimp.TOp.sortOp ⟨2, [true, true]⟩⟩,
         ⟨2, SortSimp.TOp.gte 0 1⟩]).1, false)) :=
  ⟨by unfold FPSimp.WellOrdered; decide,
   by decide,
   c6_passes_idempotent _ []
     [⟨0, WhileFull.WOp.whileOp (.ltParamConst 0 5) ⟨[true], none⟩
         (.tuplev [.intv 0, .tuplev [.intv 1, .unknownv]])⟩,
      ⟨1, WhileFull.WOp.gte 0 0⟩] [] _
     (by unfold FPSimp.WellOrdered; decide) (by decide)⟩
